import Mathlib

/-!
# cuASR / fwgpu: the CPU reference GEMM kernels

A shallow embedding of `include/fwgpu/cpu_gemm.hpp` and the properties of its two entry
points, `cpu_gemm_naive` (raw column-major buffers) and `naive_mm` (matrix objects).

Modelling choices.
* Memory is a list of blocks (allocated objects), each a `List T`. A pointer is a block
  together with an element offset inside the block, so the three pointer arguments of
  `cpu_gemm_naive` may point into the same block and their regions may overlap. An access
  outside the block of the pointer is undefined behaviour in the source and is the `none`
  result here.
* The `int` index arithmetic of lines 19 and 21 is 32-bit: every `int` multiplication and
  addition is reduced to its two's complement value by `wrapInt`. The dimensions `m`, `n`,
  `k` are values of type `Int` (they may be negative); the loop counters run from `0` to
  their bound and are not wrapped. `size_t` values are natural numbers.
* `cpu_gemm_naive_ideal` is the same kernel with mathematical integers in place of 32-bit
  ones. It is the reference against which the 32-bit arithmetic is compared, not the
  source.
* Every buffer access of `cpu_gemm_naive` is appended to a log (`Memory.trace`), so that
  statements about which elements are read or written are statements about the run.
* The element type `T` only needs `0`, `+` and `*`, as in the source template.
-/

namespace fwgpu

/-! ## Loops -/

/-- The iterations `i, i+1, ..., i+r-1` of a counting loop, threading the loop state and
stopping at the first failing iteration. -/
def forFrom {σ : Type} (body : Nat → σ → Option σ) : Nat → Nat → σ → Option σ
  | 0, _, s => some s
  | r + 1, i, s => (body i s).bind (forFrom body r (i + 1))

/-- The loop `for (int i = 0; i < bound; ++i) body`: no iteration when `bound ≤ 0`,
otherwise the counter takes the values `0, ..., bound - 1`. -/
def forLoop {σ : Type} (bound : Int) (body : Int → σ → Option σ) (s : σ) : Option σ :=
  forFrom (fun j => body (j : Int)) bound.toNat 0 s

/-- The loop `for (size_t i = 0; i < bound; ++i) body`. -/
def forLoopN {σ : Type} (bound : Nat) (body : Nat → σ → Option σ) (s : σ) : Option σ :=
  forFrom body bound 0 s

/-! ## 32-bit `int` -/

/-- The largest value of the 32-bit signed type `int`, `2^31 - 1`. -/
def INT_MAX : Int := 2147483647

/-- The value `x` lies in `[0, 2^31 - 1]`. -/
def FitsInt (x : Int) : Prop := 0 ≤ x ∧ x ≤ INT_MAX

/-- The 32-bit two's complement value of the mathematical integer `x`: the representative
of `x` modulo `2^32` in `[-2^31, 2^31 - 1]`. -/
def wrapInt (x : Int) : Int := (x + 2147483648) % 4294967296 - 2147483648

/-! ## Memory -/

/-- One buffer access of `cpu_gemm_naive`, with the element offset that was used
(relative to the pointer `A`, `B` or `C`). -/
inductive Access where
  | readA (off : Int)
  | readB (off : Int)
  | writeC (off : Int)
  deriving DecidableEq

/-- A pointer to an element of type `T`: the block it points into and the offset of the
element inside the block. -/
structure Ptr where
  blk : Nat
  off : Nat
  deriving DecidableEq

/-- The memory seen by a call of `cpu_gemm_naive`: the allocated blocks and the log of the
accesses made so far. -/
structure Memory (T : Type) where
  blocks : List (List T)
  trace : List Access

/-- The element at position `addr` of the block `blk`, when there is one. -/
def cell {T : Type} (blocks : List (List T)) (blk addr : Nat) : Option T :=
  (blocks[blk]?).bind fun b => b[addr]?

/-- The read `p[i]` for an `int` index `i`: the element at position `p.off + i` of the
block of `p`. -/
def Memory.load {T : Type} (s : Memory T) (p : Ptr) (i : Int) : Option T :=
  if 0 ≤ (p.off : Int) + i then cell s.blocks p.blk ((p.off : Int) + i).toNat else none

/-- The write `p[i] = v` for an `int` index `i`; the result is the new list of blocks. -/
def Memory.store {T : Type} (s : Memory T) (p : Ptr) (i : Int) (v : T) :
    Option (List (List T)) :=
  if 0 ≤ (p.off : Int) + i then
    (s.blocks[p.blk]?).bind fun b =>
      if ((p.off : Int) + i).toNat < b.length then
        some (s.blocks.set p.blk (b.set ((p.off : Int) + i).toNat v))
      else none
  else none

/-- The read `A[off]`, logged. -/
def Memory.readA {T : Type} (s : Memory T) (A : Ptr) (off : Int) : Option (T × Memory T) :=
  (s.load A off).map fun v => (v, { s with trace := s.trace ++ [Access.readA off] })

/-- The read `B[off]`, logged. -/
def Memory.readB {T : Type} (s : Memory T) (B : Ptr) (off : Int) : Option (T × Memory T) :=
  (s.load B off).map fun v => (v, { s with trace := s.trace ++ [Access.readB off] })

/-- The write `C[off] = v`, logged. -/
def Memory.writeC {T : Type} (s : Memory T) (C : Ptr) (off : Int) (v : T) :
    Option (Memory T) :=
  (s.store C off v).map fun bs =>
    { blocks := bs, trace := s.trace ++ [Access.writeC off] }

/-! ## `cpu_gemm_naive` (cpu_gemm.hpp, lines 10-24) -/

section Kernel

variable {T : Type} [Zero T] [Add T] [Mul T]

/-- Line 19, the body of the innermost loop:
`tmp += A[row + (i * lda)] * B[i + (col * ldb)];` with the `int` operations of the two
offsets computed in 32 bits. The loop state is `(tmp, memory)`. The element of `A` is read
before the element of `B`; the order only shows in the log. -/
def cpu_gemm_naive.accStep (A B : Ptr) (lda ldb row col i : Int) (st : T × Memory T) :
    Option (T × Memory T) :=
  (st.2.readA A (wrapInt (row + wrapInt (i * lda)))).bind fun ra =>
    (ra.2.readB B (wrapInt (i + wrapInt (col * ldb)))).bind fun rb =>
      some (st.1 + ra.1 * rb.1, rb.2)

/-- Lines 17-21, the body of the loop over `col`: the accumulator starts at
`static_cast<T>(0)`, the loop over `i` runs, and the accumulator is stored at
`C[row + (col * ldc)]`, the offset being computed in 32 bits. -/
def cpu_gemm_naive.cellStep (A B C : Ptr) (k lda ldb ldc row col : Int) (s : Memory T) :
    Option (Memory T) :=
  (forLoop k (cpu_gemm_naive.accStep A B lda ldb row col) ((0 : T), s)).bind fun st =>
    st.2.writeC C (wrapInt (row + wrapInt (col * ldc))) st.1

/-- Lines 16-22, the body of the loop over `row`. -/
def cpu_gemm_naive.rowStep (A B C : Ptr) (n k lda ldb ldc row : Int) (s : Memory T) :
    Option (Memory T) :=
  forLoop n (cpu_gemm_naive.cellStep A B C k lda ldb ldc row) s

/-- The function `cpu_gemm_naive(m, n, k, A, B, C)`, with `lda = m`, `ldb = k` and
`ldc = m` (lines 12-14). -/
def cpu_gemm_naive (m n k : Int) (A B C : Ptr) (s : Memory T) : Option (Memory T) :=
  let lda := m
  let ldb := k
  let ldc := m
  forLoop m (cpu_gemm_naive.rowStep A B C n k lda ldb ldc) s

end Kernel

/-! ## The kernel with mathematical integers -/

section KernelIdeal

variable {T : Type} [Zero T] [Add T] [Mul T]

/-- Line 19 with the offsets computed in mathematical integers. -/
def cpu_gemm_naive_ideal.accStep (A B : Ptr) (lda ldb row col i : Int)
    (st : T × Memory T) : Option (T × Memory T) :=
  (st.2.readA A (row + (i * lda))).bind fun ra =>
    (ra.2.readB B (i + (col * ldb))).bind fun rb =>
      some (st.1 + ra.1 * rb.1, rb.2)

/-- Lines 17-21 with the offset of the write computed in mathematical integers. -/
def cpu_gemm_naive_ideal.cellStep (A B C : Ptr) (k lda ldb ldc row col : Int)
    (s : Memory T) : Option (Memory T) :=
  (forLoop k (cpu_gemm_naive_ideal.accStep A B lda ldb row col) ((0 : T), s)).bind fun st =>
    st.2.writeC C (row + (col * ldc)) st.1

/-- Lines 16-22 with mathematical integers. -/
def cpu_gemm_naive_ideal.rowStep (A B C : Ptr) (n k lda ldb ldc row : Int)
    (s : Memory T) : Option (Memory T) :=
  forLoop n (cpu_gemm_naive_ideal.cellStep A B C k lda ldb ldc row) s

/-- The kernel `cpu_gemm_naive` with its index arithmetic in mathematical integers: the
reference with which the 32-bit kernel is compared. -/
def cpu_gemm_naive_ideal (m n k : Int) (A B C : Ptr) (s : Memory T) : Option (Memory T) :=
  let lda := m
  let ldb := k
  let ldc := m
  forLoop m (cpu_gemm_naive_ideal.rowStep A B C n k lda ldb ldc) s

end KernelIdeal

/-! ## `Matrix` and `naive_mm` (cpu_gemm.hpp, lines 26-42) -/

/-- Modelled from the spec: the class template `Matrix<T>` of `Matrix.hpp`, which is
included by `cpu_gemm.hpp` but is not among the sources. The spec describes it as an
owning, rectangular, column-major dense container exposing its row count, its column
count and a two-index accessor; element `(row, col)` of a matrix with `num_rows` rows is
at linear offset `row + col * num_rows` of the buffer. -/
structure Matrix (T : Type) where
  num_rows : Nat
  num_cols : Nat
  buf : List T

/-- Modelled from the spec: the constructor `Matrix<T>(rows, cols)`, which
default-initializes all `rows * cols` entries; `default` is the default-construction
value of `T`. -/
def Matrix.create {T : Type} [Inhabited T] (rows cols : Nat) : Matrix T :=
  ⟨rows, cols, List.replicate (rows * cols) default⟩

/-- Modelled from the spec: the two-index accessor `M(row, col)` of `Matrix<T>`, which
designates the element at offset `row + col * num_rows` of the column-major buffer. -/
def Matrix.at {T : Type} (M : Matrix T) (row col : Nat) : Option T :=
  M.buf[row + col * M.num_rows]?

/-- A matrix object owns exactly `num_rows * num_cols` elements. -/
def Matrix.WF {T : Type} (M : Matrix T) : Prop :=
  M.buf.length = M.num_rows * M.num_cols

section NaiveMM

variable {T : Type} [Zero T] [Add T] [Mul T]

/-- Line 36, the body of the innermost loop: `tmp += A(row, i) * B(i, col);`. -/
def naive_mm.accStep (A B : Matrix T) (row col i : Nat) (tmp : T) : Option T :=
  (A.at row i).bind fun a => (B.at i col).bind fun b => some (tmp + a * b)

/-- Lines 34-38, the body of the loop over `col`: the accumulator is computed, and then
the statement `c(row, col);` evaluates the accessor and discards the element it
designates; nothing is assigned to `c`. -/
def naive_mm.cellStep (A B : Matrix T) (k row col : Nat) (c : Matrix T) :
    Option (Matrix T) :=
  (forLoopN k (naive_mm.accStep A B row col) (0 : T)).bind fun _tmp =>
    (c.at row col).bind fun _elem => some c

/-- Lines 33-39, the body of the loop over `row`. -/
def naive_mm.rowStep (A B : Matrix T) (n k row : Nat) (c : Matrix T) : Option (Matrix T) :=
  forLoopN n (naive_mm.cellStep A B k row) c

/-- The function `naive_mm(A, B)`. -/
def naive_mm [Inhabited T] (A B : Matrix T) : Option (Matrix T) :=
  let m := A.num_rows
  let n := B.num_cols
  let k := A.num_cols
  let c : Matrix T := Matrix.create m n
  forLoopN m (naive_mm.rowStep A B n k) c

end NaiveMM

/-! ## Reference values and reference access log -/

/-- The element `p[j]` of the memory, when `p[j]` is inside the block of `p`. -/
def Memory.elem {T : Type} (s : Memory T) (p : Ptr) (j : Nat) : Option T :=
  cell s.blocks p.blk (p.off + j)

/-- The value of the element `p[j]`, with the placeholder `0` outside the block. -/
def Memory.val {T : Type} [Zero T] (s : Memory T) (p : Ptr) (j : Nat) : T :=
  (s.elem p j).getD 0

/-- The pointer `p` is the start of a buffer of at least `len` elements: the elements
`p[0], ..., p[len-1]` are inside the block of `p`. -/
def Memory.Valid {T : Type} (s : Memory T) (p : Ptr) (len : Nat) : Prop :=
  ∀ j, j < len → (s.elem p j).isSome = true

/-- The `lp` elements from `p` on and the `lq` elements from `q` on have no element in
common. -/
def NoOverlap (p : Ptr) (lp : Nat) (q : Ptr) (lq : Nat) : Prop :=
  ∀ i j, i < lp → j < lq → ¬ (p.blk = q.blk ∧ p.off + i = q.off + j)

section Reference

variable {T : Type} [Zero T] [Add T] [Mul T]

/-- The left-to-right accumulation for the cell `(row, col)` of the product of the
matrices `a` (`m × k`) and `b` (`k × n`) given by their column-major elements: starting
from `0`, the term `a[row + i*m] * b[i + col*k]` is added on the right for
`i = 0, 1, ..., k-1` in this order. -/
def dotFold (m k : Nat) (a b : Nat → T) (row col : Nat) : T :=
  (List.range k).foldl (fun acc i => acc + a (row + i * m) * b (i + col * k)) 0

/-- The accesses of the loop over `i` for the cell `(row, col)`. -/
def accTrace (m k row col : Nat) : List Access :=
  (List.range k).flatMap fun i =>
    [Access.readA ((row + i * m : Nat) : Int), Access.readB ((i + col * k : Nat) : Int)]

/-- The accesses for the cell `(row, col)`: the reads, then the write of the cell. -/
def cellTrace (m k row col : Nat) : List Access :=
  accTrace m k row col ++ [Access.writeC ((row + col * m : Nat) : Int)]

/-- The accesses of one iteration of the loop over `row`. -/
def rowTrace (m n k row : Nat) : List Access :=
  (List.range n).flatMap (cellTrace m k row)

/-- The accesses of a whole call, in program order. -/
def gemmTrace (m n k : Nat) : List Access :=
  (List.range m).flatMap (rowTrace m n k)

/-- Progress of a call from the memory `s` to the memory `s'`: the same positions of the
same blocks exist, the log has grown by `tr`, every position of the memory that is not a
cell of `C` in `D` holds what it held in `s`, and, when the inputs are apart from the
output (`sep`), every cell in `D` holds the accumulation over the elements that `A` and
`B` had in `s`. -/
structure CellsDone (m k : Nat) (A B C : Ptr) (sep : Prop) (D : Nat → Nat → Prop)
    (tr : List Access) (s s' : Memory T) : Prop where
  hsome : ∀ blk addr, (cell s'.blocks blk addr).isSome = (cell s.blocks blk addr).isSome
  htrace : s'.trace = s.trace ++ tr
  hrest : ∀ blk addr,
    (∀ row col, D row col → ¬ (blk = C.blk ∧ addr = C.off + (row + col * m))) →
    cell s'.blocks blk addr = cell s.blocks blk addr
  hdone : sep → ∀ row col, D row col →
    s'.elem C (row + col * m) = some (dotFold m k (s.val A) (s.val B) row col)

end Reference

/-- The column-major buffer of the `k × k` identity matrix: the element at offset
`i + col * k` is `1` when `i = col` and `0` otherwise. -/
def identityBuf (T : Type) [Zero T] [One T] (k : Nat) : List T :=
  (List.range (k * k)).map fun off => if off % k = off / k then 1 else 0

/-! ## Loop rules -/

/-- Invariant rule for counting loops: an invariant that holds at the start and is carried
by every iteration makes the loop succeed and holds at the end. -/
theorem forFrom_inv {σ : Type} (body : Nat → σ → Option σ) (P : Nat → σ → Prop) :
    ∀ (r i : Nat) (s : σ), P i s →
      (∀ j t, i ≤ j → j < i + r → P j t → ∃ t', body j t = some t' ∧ P (j + 1) t') →
      ∃ s', forFrom body r i s = some s' ∧ P (i + r) s' := by
  intro r
  induction r with
  | zero => intro i s h _; exact ⟨s, rfl, by simpa using h⟩
  | succ r ih =>
    intro i s h hstep
    obtain ⟨t, ht, hPt⟩ := hstep i s (Nat.le_refl i) (by omega) h
    obtain ⟨s', hs', hPs'⟩ := ih (i + 1) t hPt
      (fun j u h1 h2 hu => hstep j u (by omega) (by omega) hu)
    refine ⟨s', ?_, ?_⟩
    · simp [forFrom, ht, hs']
    · have e : i + (r + 1) = i + 1 + r := by omega
      rw [e]; exact hPs'

theorem forLoop_inv {σ : Type} (body : Int → σ → Option σ) (P : Nat → σ → Prop)
    (b : Nat) (s : σ) (h0 : P 0 s)
    (hstep : ∀ j t, j < b → P j t → ∃ t', body (j : Int) t = some t' ∧ P (j + 1) t') :
    ∃ s', forLoop (b : Int) body s = some s' ∧ P b s' := by
  have h := forFrom_inv (fun j => body (j : Int)) P b 0 s h0
    (fun j t _ h2 hP => hstep j t (by omega) hP)
  simpa [forLoop] using h

/-- Loops whose bodies agree on the counter values they take agree. -/
theorem forFrom_congr {σ : Type} (f g : Nat → σ → Option σ) :
    ∀ (r i : Nat) (s : σ), (∀ j t, i ≤ j → j < i + r → f j t = g j t) →
      forFrom f r i s = forFrom g r i s := by
  intro r
  induction r with
  | zero => intro i s _; rfl
  | succ r ih =>
    intro i s h
    simp only [forFrom]
    rw [h i s (Nat.le_refl i) (by omega)]
    cases g i s with
    | none => rfl
    | some t =>
      exact ih (i + 1) t (fun j u h1 h2 => h j u (by omega) (by omega))

theorem forLoop_congr {σ : Type} (f g : Int → σ → Option σ) (b : Nat) (s : σ)
    (h : ∀ j t, j < b → f (j : Int) t = g (j : Int) t) :
    forLoop (b : Int) f s = forLoop (b : Int) g s := by
  simp only [forLoop, Int.toNat_natCast]
  exact forFrom_congr _ _ b 0 s (fun j t _ h2 => h j t (by omega))

/-- A loop whose iterations leave the state as it is leaves the state as it is. -/
theorem forFrom_id {σ : Type} (body : Nat → σ → Option σ)
    (hbody : ∀ j t, body j t = some t) :
    ∀ (r i : Nat) (s : σ), forFrom body r i s = some s := by
  intro r
  induction r with
  | zero => intro i s; rfl
  | succ r ih => intro i s; simp [forFrom, hbody, ih]

/-- A loop with an iteration that fails on every state fails. -/
theorem forFrom_none {σ : Type} (body : Nat → σ → Option σ) :
    ∀ (r i : Nat) (s : σ) (j : Nat), i ≤ j → j < i + r → (∀ t, body j t = none) →
      forFrom body r i s = none := by
  intro r
  induction r with
  | zero => intro i s j h1 h2 _; omega
  | succ r ih =>
    intro i s j h1 h2 hj
    simp only [forFrom]
    cases hb : body i s with
    | none => rfl
    | some t =>
      have hne : i ≠ j := by
        intro e
        subst e
        rw [hj s] at hb
        cases hb
      exact ih (i + 1) t j (by omega) (by omega) hj

theorem forLoop_none {σ : Type} (body : Int → σ → Option σ) (b : Nat) (s : σ) (j : Nat)
    (hj : j < b) (h : ∀ t, body (j : Int) t = none) : forLoop (b : Int) body s = none := by
  simp only [forLoop, Int.toNat_natCast]
  exact forFrom_none _ b 0 s j (Nat.zero_le j) (by omega) h

/-! ## Arithmetic of offsets -/

/-- Offsets of `A` used for a cell of the result are inside an `m × k` buffer. -/
theorem offA_lt {m k row i : Nat} (hrow : row < m) (hi : i < k) : row + i * m < m * k := by
  calc row + i * m < m + i * m := by omega
    _ = m * (i + 1) := by ring
    _ ≤ m * k := Nat.mul_le_mul_left m hi

/-- Offsets of `B` used for a cell of the result are inside a `k × n` buffer. -/
theorem offB_lt {k n i col : Nat} (hi : i < k) (hcol : col < n) : i + col * k < k * n := by
  calc i + col * k < k + col * k := by omega
    _ = k * (col + 1) := by ring
    _ ≤ k * n := Nat.mul_le_mul_left k hcol

/-- The offset map `(row, col) ↦ row + col * m` is injective on rows below `m`. -/
theorem offC_inj {m row col row' col' : Nat} (hrow : row < m) (hrow' : row' < m)
    (h : row + col * m = row' + col' * m) : row = row' ∧ col = col' := by
  have h1 : (row + col * m) % m = (row' + col' * m) % m := by rw [h]
  rw [Nat.add_mul_mod_self_right, Nat.add_mul_mod_self_right,
    Nat.mod_eq_of_lt hrow, Nat.mod_eq_of_lt hrow'] at h1
  subst h1
  have h2 : col * m = col' * m := by omega
  exact ⟨rfl, Nat.eq_of_mul_eq_mul_right (by omega) h2⟩

/-- Every offset below `m * n` is the offset of exactly one cell of the `m × n` result. -/
theorem off_decomp {m n off : Nat} (h : off < m * n) :
    off % m < m ∧ off / m < n ∧ off = off % m + off / m * m := by
  have hm : 0 < m := by
    rcases Nat.eq_zero_or_pos m with h0 | h0
    · subst h0; simp at h
    · exact h0
  refine ⟨Nat.mod_lt _ hm, ?_, ?_⟩
  · rw [Nat.div_lt_iff_lt_mul hm, Nat.mul_comm]; exact h
  · rw [Nat.mul_comm]; exact (Nat.mod_add_div off m).symm

/-- For a row below `m`, the cell `(row, col)` has the offset `off` exactly when `row` and
`col` are the remainder and the quotient of `off` by `m`. -/
theorem offC_eq_iff {m row col off : Nat} (hrow : row < m) :
    row + col * m = off ↔ off % m = row ∧ off / m = col := by
  constructor
  · intro h
    subst h
    constructor
    · rw [Nat.add_mul_mod_self_right, Nat.mod_eq_of_lt hrow]
    · rw [Nat.add_mul_div_right _ _ (by omega : 0 < m), Nat.div_eq_of_lt hrow, Nat.zero_add]
  · rintro ⟨h1, h2⟩
    subst h1 h2
    rw [Nat.mul_comm]
    exact Nat.mod_add_div off m

/-! ## Memory lemmas -/

theorem load_natCast {T : Type} (s : Memory T) (p : Ptr) (j : Nat) :
    s.load p (j : Int) = s.elem p j := by
  have e : ((p.off : Int) + (j : Int)) = ((p.off + j : Nat) : Int) := by push_cast; rfl
  simp only [Memory.load, Memory.elem, e, Int.toNat_natCast]
  rw [if_pos (Int.natCast_nonneg _)]

theorem elem_eq_some_val {T : Type} [Zero T] (s : Memory T) (p : Ptr) (j : Nat)
    (h : (s.elem p j).isSome = true) : s.elem p j = some (s.val p j) := by
  unfold Memory.val
  cases he : s.elem p j with
  | none => rw [he] at h; cases h
  | some v => rfl

theorem val_of_elem {T : Type} [Zero T] {s : Memory T} {p : Ptr} {j : Nat} {v : T}
    (h : s.elem p j = some v) : s.val p j = v := by
  simp [Memory.val, h]

/-- A position that holds an element lies in a block and inside it. -/
theorem cell_isSome {T : Type} {blocks : List (List T)} {blk addr : Nat}
    (h : (cell blocks blk addr).isSome = true) :
    ∃ b, blocks[blk]? = some b ∧ addr < b.length := by
  unfold cell at h
  cases hb : blocks[blk]? with
  | none => rw [hb] at h; cases h
  | some b =>
    rw [hb] at h
    refine ⟨b, rfl, ?_⟩
    simp only [Option.some_bind] at h
    by_contra hlt
    rw [List.getElem?_eq_none (by omega)] at h
    cases h

/-- The elements of the memory after one element of one block has been replaced. -/
theorem cell_set {T : Type} {blocks : List (List T)} {blk addr : Nat} {b : List T} (v : T)
    (hb : blocks[blk]? = some b) (haddr : addr < b.length) (blk' addr' : Nat) :
    cell (blocks.set blk (b.set addr v)) blk' addr'
      = if blk' = blk ∧ addr' = addr then some v else cell blocks blk' addr' := by
  have hblk : blk < blocks.length := by
    by_contra hlt
    rw [List.getElem?_eq_none (by omega)] at hb
    cases hb
  by_cases h1 : blk' = blk
  · subst h1
    by_cases h2 : addr' = addr
    · subst h2
      simp [cell, List.getElem?_set_self hblk, List.getElem?_set_self haddr]
    · have h2' : addr ≠ addr' := fun e => h2 e.symm
      simp [cell, List.getElem?_set_self hblk, List.getElem?_set_ne h2', hb, h2]
  · have h1' : blk ≠ blk' := fun e => h1 e.symm
    simp [cell, List.getElem?_set_ne h1', h1]

/-- The write `p[j] = v` at an existing element succeeds and replaces that element. -/
theorem store_natCast {T : Type} (s : Memory T) (p : Ptr) (j : Nat) (v : T)
    (h : (s.elem p j).isSome = true) :
    ∃ b, s.blocks[p.blk]? = some b ∧ p.off + j < b.length ∧
      s.store p (j : Int) v = some (s.blocks.set p.blk (b.set (p.off + j) v)) := by
  obtain ⟨b, hb, hlt⟩ := cell_isSome h
  refine ⟨b, hb, hlt, ?_⟩
  have e : ((p.off : Int) + (j : Int)) = ((p.off + j : Nat) : Int) := by push_cast; rfl
  simp only [Memory.store, e, Int.toNat_natCast, hb, Option.some_bind]
  rw [if_pos (Int.natCast_nonneg _), if_pos hlt]

/-- Validity of a buffer only depends on which positions of the memory exist. -/
theorem valid_of_hsome {T : Type} {s s1 : Memory T} {p : Ptr} {len : Nat}
    (hsome : ∀ blk addr, (cell s1.blocks blk addr).isSome = (cell s.blocks blk addr).isSome)
    (h : s.Valid p len) : s1.Valid p len := by
  intro j hj
  have := h j hj
  unfold Memory.elem at this ⊢
  rw [hsome]
  exact this

/-! ## The kernel with mathematical integers, loop by loop -/

section IdealLemmas

variable {T : Type} [Zero T] [Add T] [Mul T]

/-- The accumulation only depends on the elements of the row of `a` and of the column of
`b`. -/
theorem dotFold_congr (m k : Nat) (a a' b b' : Nat → T) (row col : Nat)
    (ha : ∀ i, i < k → a (row + i * m) = a' (row + i * m))
    (hb : ∀ i, i < k → b (i + col * k) = b' (i + col * k)) :
    dotFold m k a b row col = dotFold m k a' b' row col := by
  have key : ∀ j, j ≤ k →
      (List.range j).foldl (fun acc i => acc + a (row + i * m) * b (i + col * k)) 0
        = (List.range j).foldl (fun acc i => acc + a' (row + i * m) * b' (i + col * k)) 0 := by
    intro j
    induction j with
    | zero => intro _; rfl
    | succ j ih =>
      intro hj
      simp only [List.range_succ, List.foldl_append, List.foldl_cons, List.foldl_nil]
      rw [ih (by omega), ha j (by omega), hb j (by omega)]
  exact key k (Nat.le_refl k)

/-- The loop over `i` (lines 18-20) succeeds on valid input buffers, leaves the memory
alone, computes the left-to-right accumulation and logs exactly its reads. -/
theorem accLoop_spec (m n k row col : Nat) (A B : Ptr) (s : Memory T)
    (hrow : row < m) (hcol : col < n)
    (hA : s.Valid A (m * k)) (hB : s.Valid B (k * n)) :
    forLoop (k : Int)
        (cpu_gemm_naive_ideal.accStep A B (m : Int) (k : Int) (row : Int) (col : Int))
        ((0 : T), s)
      = some (dotFold m k (s.val A) (s.val B) row col,
          { s with trace := s.trace ++ accTrace m k row col }) := by
  obtain ⟨st, hst, hP⟩ := forLoop_inv
    (cpu_gemm_naive_ideal.accStep A B (m : Int) (k : Int) (row : Int) (col : Int))
    (fun j (st : T × Memory T) => st =
      ((List.range j).foldl
          (fun acc i => acc + s.val A (row + i * m) * s.val B (i + col * k)) 0,
        { s with trace := s.trace ++ (List.range j).flatMap fun i =>
            [Access.readA ((row + i * m : Nat) : Int),
              Access.readB ((i + col * k : Nat) : Int)] }))
    k ((0 : T), s) (by simp)
    (by
      intro j t hj ht
      subst ht
      have ea : ((row : Int) + (j : Int) * (m : Int)) = ((row + j * m : Nat) : Int) := by
        push_cast; rfl
      have eb : ((j : Int) + (col : Int) * (k : Int)) = ((j + col * k : Nat) : Int) := by
        push_cast; rfl
      have hla : ∀ tr : List Access, (⟨s.blocks, tr⟩ : Memory T).load A
          ((row + j * m : Nat) : Int) = some (s.val A (row + j * m)) := by
        intro tr
        rw [load_natCast]
        exact elem_eq_some_val s A _ (hA _ (offA_lt hrow hj))
      have hlb : ∀ tr : List Access, (⟨s.blocks, tr⟩ : Memory T).load B
          ((j + col * k : Nat) : Int) = some (s.val B (j + col * k)) := by
        intro tr
        rw [load_natCast]
        exact elem_eq_some_val s B _ (hB _ (offB_lt hj hcol))
      refine ⟨_, ?_, rfl⟩
      simp only [cpu_gemm_naive_ideal.accStep, Memory.readA, Memory.readB, ea, eb,
        hla, hlb, Option.map_some', Option.some_bind, List.range_succ, List.foldl_append,
        List.foldl_cons, List.foldl_nil, List.flatMap_append, List.flatMap_cons,
        List.flatMap_nil, List.append_nil, List.append_assoc, List.singleton_append])
  rw [hst, hP]
  rfl

theorem CellsDone.congr {m k : Nat} {A B C : Ptr} {sep : Prop} {D D' : Nat → Nat → Prop}
    {tr tr' : List Access} {s s' : Memory T} (h : CellsDone m k A B C sep D tr s s')
    (hD : ∀ row col, D' row col ↔ D row col) (htr : tr' = tr) :
    CellsDone m k A B C sep D' tr' s s' where
  hsome := h.hsome
  htrace := by rw [htr]; exact h.htrace
  hrest := fun blk addr hoff =>
    h.hrest blk addr (fun row col hd => hoff row col ((hD row col).2 hd))
  hdone := fun hs row col hd => h.hdone hs row col ((hD row col).1 hd)

/-- Lines 17-21 for the cell `(r, c)`: on valid buffers the step succeeds and adds the
cell `(r, c)` to the cells that are done. -/
theorem cellStep_spec (m n k r c : Nat) (A B C : Ptr) (sep : Prop)
    (D : Nat → Nat → Prop) (tr : List Access) (s s1 : Memory T) (hr : r < m) (hc : c < n)
    (hA : s.Valid A (m * k)) (hB : s.Valid B (k * n)) (hC : s.Valid C (m * n))
    (hsep : sep → NoOverlap A (m * k) C (m * n) ∧ NoOverlap B (k * n) C (m * n))
    (hD : ∀ row col, D row col → row < m ∧ col < n)
    (h : CellsDone m k A B C sep D tr s s1) :
    ∃ s2, cpu_gemm_naive_ideal.cellStep A B C (k : Int) (m : Int) (k : Int) (m : Int)
        (r : Int) (c : Int) s1 = some s2 ∧
      CellsDone m k A B C sep (fun row col => D row col ∨ (row = r ∧ col = c))
        (tr ++ cellTrace m k r c) s s2 := by
  have hA1 : s1.Valid A (m * k) := valid_of_hsome h.hsome hA
  have hB1 : s1.Valid B (k * n) := valid_of_hsome h.hsome hB
  have hC1 : s1.Valid C (m * n) := valid_of_hsome h.hsome hC
  have hlt : r + c * m < m * n := offA_lt hr hc
  have ec : ((r : Int) + (c : Int) * (m : Int)) = ((r + c * m : Nat) : Int) := by
    push_cast; rfl
  obtain ⟨b, hb, hblt, hstore⟩ := store_natCast
    (⟨s1.blocks, s1.trace ++ accTrace m k r c⟩ : Memory T) C (r + c * m)
    (dotFold m k (s1.val A) (s1.val B) r c) (hC1 _ hlt)
  have hrun : cpu_gemm_naive_ideal.cellStep A B C (k : Int) (m : Int) (k : Int) (m : Int)
      (r : Int) (c : Int) s1 = some
        ⟨s1.blocks.set C.blk (b.set (C.off + (r + c * m))
            (dotFold m k (s1.val A) (s1.val B) r c)),
          s1.trace ++ accTrace m k r c ++ [Access.writeC ((r + c * m : Nat) : Int)]⟩ := by
    simp only [cpu_gemm_naive_ideal.cellStep, accLoop_spec m n k r c A B s1 hr hc hA1 hB1,
      Option.some_bind, Memory.writeC, ec, hstore, Option.map_some']
  refine ⟨_, hrun, ?_⟩
  have hb' : s1.blocks[C.blk]? = some b := hb
  constructor
  · intro blk addr
    simp only []
    rw [cell_set _ hb' hblt, ← h.hsome]
    split
    · next heq =>
      obtain ⟨e1, e2⟩ := heq
      subst e1 e2
      exact (hC1 _ hlt).symm
    · rfl
  · simp only [h.htrace, cellTrace, List.append_assoc]
  · intro blk addr hoff
    have hne : ¬ (blk = C.blk ∧ addr = C.off + (r + c * m)) := hoff r c (Or.inr ⟨rfl, rfl⟩)
    simp only []
    rw [cell_set _ hb' hblt, if_neg hne]
    exact h.hrest blk addr (fun row col hd => hoff row col (Or.inl hd))
  · intro hs row col hd
    obtain ⟨hsA, hsB⟩ := hsep hs
    have hvA : ∀ i, i < k → s1.val A (r + i * m) = s.val A (r + i * m) := by
      intro i hi
      have hcell := h.hrest A.blk (A.off + (r + i * m))
        (fun row col hd => hsA _ _ (offA_lt hr hi) (offA_lt (hD row col hd).1 (hD row col hd).2))
      unfold Memory.val Memory.elem
      rw [hcell]
    have hvB : ∀ i, i < k → s1.val B (i + c * k) = s.val B (i + c * k) := by
      intro i hi
      have hcell := h.hrest B.blk (B.off + (i + c * k))
        (fun row col hd => hsB _ _ (offB_lt hi hc) (offA_lt (hD row col hd).1 (hD row col hd).2))
      unfold Memory.val Memory.elem
      rw [hcell]
    unfold Memory.elem
    simp only []
    rw [cell_set _ hb' hblt]
    by_cases e : C.off + (row + col * m) = C.off + (r + c * m)
    · have hrow : row < m := by
        rcases hd with hd | hd
        · exact (hD row col hd).1
        · omega
      obtain ⟨e1, e2⟩ := offC_inj hrow hr (by omega : row + col * m = r + c * m)
      subst e1 e2
      rw [if_pos ⟨rfl, rfl⟩, dotFold_congr m k _ _ _ _ row col hvA hvB]
    · rw [if_neg (fun hh => e hh.2)]
      rcases hd with hd | hd
      · exact h.hdone hs row col hd
      · exact absurd (by rw [hd.1, hd.2]) e

/-- Lines 16-22 for the row `r`: on valid buffers the loop over `col` succeeds and
completes the row `r`. -/
theorem rowStep_spec (m n k r : Nat) (A B C : Ptr) (sep : Prop) (s s1 : Memory T)
    (hr : r < m)
    (hA : s.Valid A (m * k)) (hB : s.Valid B (k * n)) (hC : s.Valid C (m * n))
    (hsep : sep → NoOverlap A (m * k) C (m * n) ∧ NoOverlap B (k * n) C (m * n))
    (h : CellsDone m k A B C sep (fun row col => row < r ∧ col < n)
      ((List.range r).flatMap (rowTrace m n k)) s s1) :
    ∃ s2, cpu_gemm_naive_ideal.rowStep A B C (n : Int) (k : Int) (m : Int) (k : Int)
        (m : Int) (r : Int) s1 = some s2 ∧
      CellsDone m k A B C sep (fun row col => row < r + 1 ∧ col < n)
        ((List.range (r + 1)).flatMap (rowTrace m n k)) s s2 := by
  obtain ⟨s2, hs2, hP⟩ := forLoop_inv
    (cpu_gemm_naive_ideal.cellStep A B C (k : Int) (m : Int) (k : Int) (m : Int) (r : Int))
    (fun c (t : Memory T) => CellsDone m k A B C sep
      (fun row col => (row < r ∧ col < n) ∨ (row = r ∧ col < c))
      ((List.range r).flatMap (rowTrace m n k) ++ (List.range c).flatMap (cellTrace m k r))
      s t)
    n s1
    (h.congr (fun row col => by constructor <;> intro hd <;> omega) (by simp))
    (by
      intro c t hc ht
      obtain ⟨t', ht', hP'⟩ := cellStep_spec m n k r c A B C sep _ _ s t hr hc hA hB hC hsep
        (fun row col hd => by omega) ht
      refine ⟨t', ht', hP'.congr (fun row col => by constructor <;> intro hd <;> omega) ?_⟩
      simp [List.range_succ])
  refine ⟨s2, hs2, hP.congr (fun row col => by constructor <;> intro hd <;> omega) ?_⟩
  simp [List.range_succ, rowTrace]

/-- The whole call with mathematical integers: on valid buffers it succeeds, the accesses
are exactly those of `gemmTrace`, nothing but the cells of the `m × n` result has
changed, and, when the inputs are apart from the output, every cell holds its accumulated
value. -/
theorem cpu_gemm_naive_ideal_spec (m n k : Nat) (A B C : Ptr) (sep : Prop) (s : Memory T)
    (hA : s.Valid A (m * k)) (hB : s.Valid B (k * n)) (hC : s.Valid C (m * n))
    (hsep : sep → NoOverlap A (m * k) C (m * n) ∧ NoOverlap B (k * n) C (m * n)) :
    ∃ s', cpu_gemm_naive_ideal (m : Int) (n : Int) (k : Int) A B C s = some s' ∧
      CellsDone m k A B C sep (fun row col => row < m ∧ col < n) (gemmTrace m n k) s s' := by
  have h0 : CellsDone m k A B C sep (fun row col => row < 0 ∧ col < n)
      ((List.range 0).flatMap (rowTrace m n k)) s s :=
    ⟨fun _ _ => rfl, by simp, fun _ _ _ => rfl, fun _ row col hd => by omega⟩
  exact forLoop_inv
    (cpu_gemm_naive_ideal.rowStep A B C (n : Int) (k : Int) (m : Int) (k : Int) (m : Int))
    (fun r (t : Memory T) => CellsDone m k A B C sep (fun row col => row < r ∧ col < n)
      ((List.range r).flatMap (rowTrace m n k)) s t)
    m s h0 (fun r t hr ht => rowStep_spec m n k r A B C sep s t hr hA hB hC hsep ht)

end IdealLemmas

/-! ## 32-bit index arithmetic against mathematical integers -/

/-- A value in `[0, 2^31 - 1]` is its own 32-bit value. -/
theorem wrapInt_of_fits {x : Int} (h : FitsInt x) : wrapInt x = x := by
  obtain ⟨h0, h1⟩ := h
  unfold INT_MAX at h1
  unfold wrapInt
  omega

/-- A natural number bounded by one that fits in `int` fits in `int`. -/
theorem fitsInt_of_le {x b : Nat} (hx : x ≤ b) (hb : ((b : Nat) : Int) ≤ INT_MAX) :
    FitsInt ((x : Nat) : Int) :=
  ⟨Int.natCast_nonneg _, le_trans (by exact_mod_cast hx) hb⟩

/-- For `x < w` and `y < z` with `w * z` representable, the product `y * w` and the
offset `x + y * w` lie in `[0, 2^31 - 1]`. -/
theorem fitsInt_off {w z x y : Nat} (hx : x < w) (hy : y < z)
    (h : ((w * z : Nat) : Int) ≤ INT_MAX) :
    FitsInt ((y : Int) * (w : Int)) ∧ FitsInt ((x : Int) + (y : Int) * (w : Int)) := by
  have hlt : x + y * w < w * z := offA_lt hx hy
  have e1 : ((y : Int) * (w : Int)) = ((y * w : Nat) : Int) := by push_cast; rfl
  have e2 : ((x : Int) + (y : Int) * (w : Int)) = ((x + y * w : Nat) : Int) := by
    push_cast; rfl
  rw [e2, e1]
  exact ⟨fitsInt_of_le (by omega) h, fitsInt_of_le (by omega) h⟩

section WrapLemmas

variable {T : Type} [Zero T] [Add T] [Mul T]

theorem cellStep_eq_ideal (m n k row col : Nat) (A B C : Ptr) (hrow : row < m)
    (hcol : col < n)
    (hmk : ((m * k : Nat) : Int) ≤ INT_MAX) (hkn : ((k * n : Nat) : Int) ≤ INT_MAX)
    (hmn : ((m * n : Nat) : Int) ≤ INT_MAX) (s : Memory T) :
    cpu_gemm_naive.cellStep A B C (k : Int) (m : Int) (k : Int) (m : Int) (row : Int)
        (col : Int) s
      = cpu_gemm_naive_ideal.cellStep A B C (k : Int) (m : Int) (k : Int) (m : Int)
          (row : Int) (col : Int) s := by
  have hacc : forLoop (k : Int)
        (cpu_gemm_naive.accStep A B (m : Int) (k : Int) (row : Int) (col : Int))
        ((0 : T), s)
      = forLoop (k : Int)
        (cpu_gemm_naive_ideal.accStep A B (m : Int) (k : Int) (row : Int) (col : Int))
        ((0 : T), s) := by
    refine forLoop_congr _ _ k _ (fun i st hi => ?_)
    obtain ⟨a1, a2⟩ := fitsInt_off hrow hi hmk
    obtain ⟨b1, b2⟩ := fitsInt_off hi hcol hkn
    simp only [cpu_gemm_naive.accStep, cpu_gemm_naive_ideal.accStep, wrapInt_of_fits a1,
      wrapInt_of_fits a2, wrapInt_of_fits b1, wrapInt_of_fits b2]
  obtain ⟨c1, c2⟩ := fitsInt_off hrow hcol hmn
  simp only [cpu_gemm_naive.cellStep, cpu_gemm_naive_ideal.cellStep, hacc,
    wrapInt_of_fits c1, wrapInt_of_fits c2]

/-- When the three matrices fit in `int`, the 32-bit kernel is the kernel with
mathematical integers. -/
theorem cpu_gemm_naive_eq_ideal (m n k : Nat) (A B C : Ptr)
    (hmk : ((m * k : Nat) : Int) ≤ INT_MAX) (hkn : ((k * n : Nat) : Int) ≤ INT_MAX)
    (hmn : ((m * n : Nat) : Int) ≤ INT_MAX) (s : Memory T) :
    cpu_gemm_naive (m : Int) (n : Int) (k : Int) A B C s
      = cpu_gemm_naive_ideal (m : Int) (n : Int) (k : Int) A B C s := by
  simp only [cpu_gemm_naive, cpu_gemm_naive_ideal]
  refine forLoop_congr _ _ m s (fun row t hrow => ?_)
  simp only [cpu_gemm_naive.rowStep, cpu_gemm_naive_ideal.rowStep]
  exact forLoop_congr _ _ n t (fun col u hcol =>
    cellStep_eq_ideal m n k row col A B C hrow hcol hmk hkn hmn u)

/-- The whole call: when the matrices fit in `int` and the buffers are valid,
`cpu_gemm_naive` succeeds, the accesses are exactly those of `gemmTrace`, nothing but the
cells of the `m × n` result has changed, and, when the inputs are apart from the output,
every cell holds its accumulated value. -/
theorem cpu_gemm_naive_spec (m n k : Nat) (A B C : Ptr) (sep : Prop) (s : Memory T)
    (hmk : ((m * k : Nat) : Int) ≤ INT_MAX) (hkn : ((k * n : Nat) : Int) ≤ INT_MAX)
    (hmn : ((m * n : Nat) : Int) ≤ INT_MAX)
    (hA : s.Valid A (m * k)) (hB : s.Valid B (k * n)) (hC : s.Valid C (m * n))
    (hsep : sep → NoOverlap A (m * k) C (m * n) ∧ NoOverlap B (k * n) C (m * n)) :
    ∃ s', cpu_gemm_naive (m : Int) (n : Int) (k : Int) A B C s = some s' ∧
      CellsDone m k A B C sep (fun row col => row < m ∧ col < n) (gemmTrace m n k) s s' := by
  rw [cpu_gemm_naive_eq_ideal m n k A B C hmk hkn hmn s]
  exact cpu_gemm_naive_ideal_spec m n k A B C sep s hA hB hC hsep

end WrapLemmas

/-! ## Failing calls -/

/-- An iteration of the loop over `i` whose offset into `A` falls before the block of `A`
fails on every state. -/
theorem accStep_none_of_offA {T : Type} [Add T] [Mul T] (A B : Ptr) (lda ldb row col i : Int)
    (h : (A.off : Int) + wrapInt (row + wrapInt (i * lda)) < 0) (st : T × Memory T) :
    cpu_gemm_naive.accStep A B lda ldb row col i st = none := by
  have hl : st.2.load A (wrapInt (row + wrapInt (i * lda))) = none := by
    unfold Memory.load
    rw [if_neg (by omega)]
  simp [cpu_gemm_naive.accStep, Memory.readA, hl]

/-- An iteration of the loop over `i` whose offset into `B` falls before the block of `B`
fails on every state. -/
theorem accStep_none_of_offB {T : Type} [Add T] [Mul T] (A B : Ptr) (lda ldb row col i : Int)
    (h : (B.off : Int) + wrapInt (i + wrapInt (col * ldb)) < 0) (st : T × Memory T) :
    cpu_gemm_naive.accStep A B lda ldb row col i st = none := by
  have hl : ∀ s : Memory T, s.load B (wrapInt (i + wrapInt (col * ldb))) = none := by
    intro s
    unfold Memory.load
    rw [if_neg (by omega)]
  simp only [cpu_gemm_naive.accStep, Memory.readA, Memory.readB]
  cases st.2.load A (wrapInt (row + wrapInt (i * lda))) with
  | none => rfl
  | some a => simp [hl]

/-- A cell whose loop over `i` has an iteration that always fails fails. -/
theorem cellStep_none_of_acc {T : Type} [Zero T] [Add T] [Mul T] (A B C : Ptr) (k : Nat)
    (lda ldb ldc row col : Int) (i : Nat) (hi : i < k)
    (h : ∀ st : T × Memory T, cpu_gemm_naive.accStep A B lda ldb row col (i : Int) st = none)
    (s : Memory T) :
    cpu_gemm_naive.cellStep A B C (k : Int) lda ldb ldc row col s = none := by
  simp [cpu_gemm_naive.cellStep, forLoop_none _ k _ i hi h]

/-- A cell whose write offset falls before the block of `C` fails. -/
theorem cellStep_none_of_offC {T : Type} [Zero T] [Add T] [Mul T] (A B C : Ptr)
    (k lda ldb ldc row col : Int)
    (h : (C.off : Int) + wrapInt (row + wrapInt (col * ldc)) < 0) (s : Memory T) :
    cpu_gemm_naive.cellStep A B C k lda ldb ldc row col s = none := by
  have hs : ∀ (t : Memory T) (v : T),
      t.store C (wrapInt (row + wrapInt (col * ldc))) v = none := by
    intro t v
    unfold Memory.store
    rw [if_neg (by omega)]
  simp only [cpu_gemm_naive.cellStep]
  cases forLoop k (cpu_gemm_naive.accStep A B lda ldb row col) ((0 : T), s) with
  | none => rfl
  | some st => simp [Memory.writeC, hs]

/-- A call with a cell that always fails fails. -/
theorem cpu_gemm_naive_none {T : Type} [Zero T] [Add T] [Mul T] (m n : Nat) (k : Int)
    (A B C : Ptr) (row col : Nat)
    (hrow : row < m) (hcol : col < n)
    (h : ∀ s : Memory T, cpu_gemm_naive.cellStep A B C k (m : Int) k (m : Int) (row : Int)
      (col : Int) s = none)
    (s : Memory T) : cpu_gemm_naive (m : Int) (n : Int) k A B C s = none := by
  simp only [cpu_gemm_naive]
  refine forLoop_none _ m s row hrow (fun t => ?_)
  simp only [cpu_gemm_naive.rowStep]
  exact forLoop_none _ n t col hcol h

/-! ## Consequences of a completed call -/

/-- Buffers in different blocks have no element in common. -/
theorem noOverlap_of_blk_ne {p q : Ptr} (lp lq : Nat) (h : p.blk ≠ q.blk) :
    NoOverlap p lp q lq :=
  fun _ _ _ _ hh => h hh.1

/-- A pointer into a block with `len` elements from the pointer on is a valid buffer of
`len` elements. -/
theorem valid_of_block {T : Type} {blocks : List (List T)} {tr : List Access} {p : Ptr}
    {b : List T} {len : Nat} (hb : blocks[p.blk]? = some b) (hlen : p.off + len ≤ b.length) :
    (⟨blocks, tr⟩ : Memory T).Valid p len := by
  intro j hj
  have hlt : p.off + j < b.length := by omega
  simp [Memory.elem, cell, hb, List.getElem?_eq_getElem hlt]

/-- The elements of a buffer are the elements of its block. -/
theorem elem_of_block {T : Type} {blocks : List (List T)} {tr : List Access} {p : Ptr}
    {b : List T} (hb : blocks[p.blk]? = some b) (j : Nat) :
    (⟨blocks, tr⟩ : Memory T).elem p j = b[p.off + j]? := by
  simp [Memory.elem, cell, hb]

/-- The first block of a memory. -/
theorem block_zero {T : Type} (a : List T) (l : List (List T)) : (a :: l)[0]? = some a := by
  simp

/-- The second block of a memory. -/
theorem block_one {T : Type} (a b : List T) (l : List (List T)) :
    (a :: b :: l)[1]? = some b := by
  simp

section Consequences

variable {T : Type} [Zero T] [Add T] [Mul T]

/-- After a call, an input buffer apart from the output holds what it held before. -/
theorem CellsDone.input_eq {m n k : Nat} {A B C : Ptr} {sep : Prop} {tr : List Access}
    {s s' : Memory T}
    (h : CellsDone m k A B C sep (fun row col => row < m ∧ col < n) tr s s')
    (p : Ptr) (len : Nat) (hp : NoOverlap p len C (m * n)) (j : Nat) (hj : j < len) :
    s'.elem p j = s.elem p j :=
  h.hrest p.blk (p.off + j)
    (fun _ _ hd => hp j _ hj (offA_lt hd.1 hd.2))

/-- After a call, a position of the memory outside the `m * n` output elements holds what
it held before. -/
theorem CellsDone.outside_eq {m n k : Nat} {A B C : Ptr} {sep : Prop} {tr : List Access}
    {s s' : Memory T}
    (h : CellsDone m k A B C sep (fun row col => row < m ∧ col < n) tr s s')
    (blk addr : Nat) (hout : ¬ (blk = C.blk ∧ C.off ≤ addr ∧ addr < C.off + m * n)) :
    cell s'.blocks blk addr = cell s.blocks blk addr :=
  h.hrest blk addr (fun row col hd hh => hout ⟨hh.1, by omega, by
    have := offA_lt hd.1 hd.2
    omega⟩)

/-- After a call, every output element holds the accumulation of its cell. -/
theorem CellsDone.output_eq {m n k : Nat} {A B C : Ptr} {tr : List Access}
    {s s' : Memory T}
    (h : CellsDone m k A B C True (fun row col => row < m ∧ col < n) tr s s')
    (off : Nat) (hoff : off < m * n) :
    s'.elem C off = some (dotFold m k (s.val A) (s.val B) (off % m) (off / m)) := by
  obtain ⟨h1, h2, h3⟩ := off_decomp hoff
  have hcell := h.hdone trivial (off % m) (off / m) ⟨h1, h2⟩
  rw [← h3] at hcell
  exact hcell

end Consequences

theorem foldl_add_eq_sum {T : Type} [Semiring T] (f : Nat → T) (k : Nat) :
    (List.range k).foldl (fun acc i => acc + f i) 0 = ∑ i in Finset.range k, f i := by
  induction k with
  | zero => simp
  | succ j ih => simp [List.range_succ, List.foldl_append, Finset.sum_range_succ, ih]

/-- In a semiring the left-to-right accumulation is the sum over `i ∈ [0, k)`. -/
theorem dotFold_eq_sum {T : Type} [Semiring T] (m k : Nat) (a b : Nat → T) (row col : Nat) :
    dotFold m k a b row col
      = ∑ i in Finset.range k, a (row + i * m) * b (i + col * k) :=
  foldl_add_eq_sum (fun i => a (row + i * m) * b (i + col * k)) k

/-! ## The reference access log -/

/-- Every access of a call belongs to a cell `(row, col)` of the result: it is the write
of the cell or one of the reads of its accumulation. -/
theorem mem_gemmTrace {m n k : Nat} {a : Access} (h : a ∈ gemmTrace m n k) :
    ∃ row col, row < m ∧ col < n ∧
      (a = Access.writeC ((row + col * m : Nat) : Int) ∨
        ∃ i, i < k ∧ (a = Access.readA ((row + i * m : Nat) : Int) ∨
          a = Access.readB ((i + col * k : Nat) : Int))) := by
  simp only [gemmTrace, rowTrace, cellTrace, accTrace, List.mem_flatMap, List.mem_range,
    List.mem_append, List.mem_singleton, List.mem_cons] at h
  obtain ⟨row, hrow, col, hcol, h⟩ := h
  refine ⟨row, col, hrow, hcol, ?_⟩
  rcases h with ⟨i, hi, h⟩ | h
  · rcases h with h | h | h
    · exact Or.inr ⟨i, hi, Or.inl h⟩
    · exact Or.inr ⟨i, hi, Or.inr h⟩
    · cases h
  · rcases h with h | h
    · exact Or.inl h
    · cases h

/-- The reads of `A` of a call use offsets in `[0, m*k)`. -/
theorem readA_mem_gemmTrace {m n k : Nat} {off : Int}
    (h : Access.readA off ∈ gemmTrace m n k) :
    0 ≤ off ∧ off < ((m * k : Nat) : Int) ∧ off.toNat < m * k := by
  obtain ⟨row, col, hrow, hcol, hw | ⟨i, hi, hr | hr⟩⟩ := mem_gemmTrace h
  · cases hw
  · cases hr
    have hlt : row + i * m < m * k := offA_lt hrow hi
    refine ⟨Int.natCast_nonneg _, by exact_mod_cast hlt, ?_⟩
    rw [Int.toNat_natCast]; exact hlt
  · cases hr

/-- The reads of `B` of a call use offsets in `[0, k*n)`. -/
theorem readB_mem_gemmTrace {m n k : Nat} {off : Int}
    (h : Access.readB off ∈ gemmTrace m n k) :
    0 ≤ off ∧ off < ((k * n : Nat) : Int) ∧ off.toNat < k * n := by
  obtain ⟨row, col, hrow, hcol, hw | ⟨i, hi, hr | hr⟩⟩ := mem_gemmTrace h
  · cases hw
  · cases hr
  · cases hr
    have hlt : i + col * k < k * n := offB_lt hi hcol
    refine ⟨Int.natCast_nonneg _, by exact_mod_cast hlt, ?_⟩
    rw [Int.toNat_natCast]; exact hlt

/-- The writes of a call use offsets in `[0, m*n)`. -/
theorem writeC_mem_gemmTrace {m n k : Nat} {off : Int}
    (h : Access.writeC off ∈ gemmTrace m n k) :
    0 ≤ off ∧ off < ((m * n : Nat) : Int) ∧ off.toNat < m * n := by
  obtain ⟨row, col, hrow, hcol, hw | ⟨i, hi, hr | hr⟩⟩ := mem_gemmTrace h
  · cases hw
    have hlt : row + col * m < m * n := offA_lt hrow hcol
    refine ⟨Int.natCast_nonneg _, by exact_mod_cast hlt, ?_⟩
    rw [Int.toNat_natCast]; exact hlt
  · cases hr
  · cases hr

/-- With `k = 0` the access log of a call holds writes only. -/
theorem gemmTrace_k_zero (m n : Nat) (a : Access) (h : a ∈ gemmTrace m n 0) :
    ∃ off, a = Access.writeC off := by
  obtain ⟨row, col, -, -, hw | ⟨i, hi, -⟩⟩ := mem_gemmTrace h
  · exact ⟨_, hw⟩
  · omega

/-! ## Counting writes -/

/-- The loop over `i` makes no write. -/
theorem count_accTrace_write (m k row col : Nat) (off : Int) :
    (accTrace m k row col).count (Access.writeC off) = 0 := by
  apply List.count_eq_zero_of_not_mem
  intro h
  simp only [accTrace, List.mem_flatMap, List.mem_cons] at h
  obtain ⟨i, -, h | h | h⟩ := h
  · cases h
  · cases h
  · cases h

/-- The accesses of the cell `(row, col)` hold one write, at the offset of the cell. -/
theorem count_cellTrace_write (m k row col off : Nat) :
    (cellTrace m k row col).count (Access.writeC (off : Int))
      = if row + col * m = off then 1 else 0 := by
  rw [cellTrace, List.count_append, count_accTrace_write, List.count_singleton', Nat.zero_add]
  by_cases h : row + col * m = off
  · subst h
    rw [if_pos rfl, if_pos rfl]
  · have h' : ¬ Access.writeC ((row + col * m : Nat) : Int) = Access.writeC (off : Int) := by
      intro e
      injection e with e
      exact h (by exact_mod_cast e)
    rw [if_neg h', if_neg h]

/-- The writes at `off` among the first `c` cells of the row `row`. -/
theorem count_rowTrace_upto (m k row off : Nat) (hrow : row < m) (c : Nat) :
    ((List.range c).flatMap (cellTrace m k row)).count (Access.writeC (off : Int))
      = if off % m = row ∧ off / m < c then 1 else 0 := by
  induction c with
  | zero => simp
  | succ c ih =>
    rw [List.range_succ, List.flatMap_append, List.count_append, ih]
    simp only [List.flatMap_cons, List.flatMap_nil, List.append_nil]
    rw [count_cellTrace_write]
    simp only [offC_eq_iff hrow]
    by_cases h1 : off % m = row
    · by_cases h2 : off / m < c
      · have h3 : ¬ off / m = c := by omega
        have h4 : off / m < c + 1 := by omega
        simp [h1, h2, h3, h4]
      · by_cases h3 : off / m = c
        · simp [h1, h3]
        · have h4 : ¬ off / m < c + 1 := by omega
          simp [h1, h2, h3, h4]
    · simp [h1]

/-- The writes at `off` among the first `r` rows. -/
theorem count_gemmTrace_upto (m n k off : Nat) (r : Nat) (hr : r ≤ m) :
    ((List.range r).flatMap (rowTrace m n k)).count (Access.writeC (off : Int))
      = if off % m < r ∧ off / m < n then 1 else 0 := by
  induction r with
  | zero => simp
  | succ r ih =>
    rw [List.range_succ, List.flatMap_append, List.count_append, ih (by omega)]
    simp only [List.flatMap_cons, List.flatMap_nil, List.append_nil]
    rw [rowTrace, count_rowTrace_upto m k r off (by omega) n]
    by_cases h1 : off / m < n
    · by_cases h2 : off % m < r
      · have h3 : ¬ off % m = r := by omega
        have h4 : off % m < r + 1 := by omega
        simp [h1, h2, h3, h4]
      · by_cases h3 : off % m = r
        · simp [h1, h3]
        · have h4 : ¬ off % m < r + 1 := by omega
          simp [h1, h2, h3, h4]
    · simp [h1]

/-- A whole call writes every offset below `m * n` once and no other offset. -/
theorem count_gemmTrace_write (m n k off : Nat) :
    (gemmTrace m n k).count (Access.writeC (off : Int)) = if off < m * n then 1 else 0 := by
  rw [gemmTrace, count_gemmTrace_upto m n k off m (Nat.le_refl m)]
  rcases Nat.eq_zero_or_pos m with hm | hm
  · subst hm; simp
  · have h1 : off % m < m := Nat.mod_lt _ hm
    have h2 : off / m < n ↔ off < m * n := by
      rw [Nat.div_lt_iff_lt_mul hm, Nat.mul_comm]
    simp [h1, h2]

/-! ## `naive_mm` -/

theorem forLoopN_inv {σ : Type} (body : Nat → σ → Option σ) (P : Nat → σ → Prop)
    (b : Nat) (s : σ) (h0 : P 0 s)
    (hstep : ∀ j t, j < b → P j t → ∃ t', body j t = some t' ∧ P (j + 1) t') :
    ∃ s', forLoopN b body s = some s' ∧ P b s' := by
  have h := forFrom_inv body P b 0 s h0 (fun j t _ h2 hP => hstep j t (by omega) hP)
  simpa [forLoopN] using h

/-- The statement `c(row, col);` leaves the matrix `c` as it is. -/
theorem naive_mm_cellStep_eq {T : Type} [Zero T] [Add T] [Mul T] (A B c : Matrix T)
    (row col : Nat) (hA : A.WF) (hB : B.WF) (hk : A.num_cols = B.num_rows)
    (hrow : row < A.num_rows) (hcol : col < B.num_cols)
    (hc : row + col * c.num_rows < c.buf.length) :
    naive_mm.cellStep A B A.num_cols row col c = some c := by
  obtain ⟨tmp, htmp, -⟩ := forLoopN_inv (naive_mm.accStep A B row col) (fun _ _ => True)
    A.num_cols (0 : T) trivial
    (by
      intro j t hj _
      have ha : row + j * A.num_rows < A.buf.length := by
        rw [hA]; exact offA_lt hrow hj
      have hb : j + col * B.num_rows < B.buf.length := by
        rw [hB]; exact offB_lt (hk ▸ hj) hcol
      refine ⟨t + A.buf[row + j * A.num_rows] * B.buf[j + col * B.num_rows], ?_, trivial⟩
      simp [naive_mm.accStep, Matrix.at, List.getElem?_eq_getElem ha,
        List.getElem?_eq_getElem hb])
  simp [naive_mm.cellStep, htmp, Matrix.at, List.getElem?_eq_getElem hc]

/-- C3. For every pair of matrices `A` and `B` with `A.num_cols = B.num_rows`,
`naive_mm(A, B)` returns exactly the matrix `Matrix<T>(A.num_rows(), B.num_cols())` as
default-constructed: it has `A.num_rows` rows and `B.num_cols` columns and every entry
holds the default-construction value, whatever `A` and `B` contain; the computed
accumulator is never stored. -/
theorem naive_mm_returns_default_matrix {T : Type} [Zero T] [Add T] [Mul T] [Inhabited T]
    (A B : Matrix T) (hA : A.WF) (hB : B.WF) (hk : A.num_cols = B.num_rows) :
    ∃ c, naive_mm A B = some c ∧ c = Matrix.create A.num_rows B.num_cols ∧
      c.num_rows = A.num_rows ∧ c.num_cols = B.num_cols ∧
      ∀ row col, row < A.num_rows → col < B.num_cols → c.at row col = some default := by
  have hrun : naive_mm A B = some (Matrix.create A.num_rows B.num_cols) := by
    obtain ⟨c, hc, hP⟩ := forLoopN_inv (naive_mm.rowStep A B B.num_cols A.num_cols)
      (fun _ (c : Matrix T) => c = Matrix.create A.num_rows B.num_cols)
      A.num_rows (Matrix.create A.num_rows B.num_cols) rfl
      (by
        intro row c hrow hceq
        subst hceq
        exact forLoopN_inv (naive_mm.cellStep A B A.num_cols row)
          (fun _ (c : Matrix T) => c = Matrix.create A.num_rows B.num_cols)
          B.num_cols (Matrix.create A.num_rows B.num_cols) rfl
          (by
            intro col c hcol hceq
            subst hceq
            refine ⟨_, naive_mm_cellStep_eq A B _ row col hA hB hk hrow hcol ?_, rfl⟩
            simpa [Matrix.create] using offA_lt hrow hcol))
    rw [← hP]; exact hc
  refine ⟨_, hrun, rfl, rfl, rfl, fun row col hrow hcol => ?_⟩
  have h : row + col * A.num_rows < A.num_rows * B.num_cols := offA_lt hrow hcol
  simp [Matrix.at, Matrix.create, List.getElem?_replicate, h]

/-- Witness for C3: for `A = [[1,2],[3,4]]` and `B` the `2 × 2` identity over the
integers, `naive_mm` returns the zero matrix. -/
theorem naive_mm_returns_default_matrix_witness :
    (Matrix.WF (⟨2, 2, [1, 3, 2, 4]⟩ : Matrix Int) ∧
      Matrix.WF (⟨2, 2, [1, 0, 0, 1]⟩ : Matrix Int) ∧ (2 : Nat) = 2) ∧
    ∃ c, naive_mm (⟨2, 2, [1, 3, 2, 4]⟩ : Matrix Int) ⟨2, 2, [1, 0, 0, 1]⟩ = some c ∧
      c = Matrix.create 2 2 ∧ c.num_rows = 2 ∧ c.num_cols = 2 ∧
      ∀ row col, row < 2 → col < 2 → c.at row col = some default :=
  ⟨⟨rfl, rfl, rfl⟩,
    naive_mm_returns_default_matrix (⟨2, 2, [1, 3, 2, 4]⟩ : Matrix Int)
      ⟨2, 2, [1, 0, 0, 1]⟩ rfl rfl rfl⟩

/-- C2, evaluated on the code. For `A = [[1,2],[3,4]]` and `B` the `2 × 2` identity over
the integers, `naive_mm(A, B)` returns the matrix with buffer `[0,0,0,0]`, while
`cpu_gemm_naive(2, 2, 2, ...)` on the column-major storage of the same `A` and `B` (three
separate blocks) leaves `[1,3,2,4]` in the output buffer: the two entry points differ at
`(0, 0)`. -/
theorem naive_mm_differs_from_cpu_gemm_naive :
    ∃ c s', naive_mm (⟨2, 2, [1, 3, 2, 4]⟩ : Matrix Int) ⟨2, 2, [1, 0, 0, 1]⟩ = some c ∧
      cpu_gemm_naive 2 2 2 ⟨0, 0⟩ ⟨1, 0⟩ ⟨2, 0⟩
        (⟨[[1, 3, 2, 4], [1, 0, 0, 1], [0, 0, 0, 0]], []⟩ : Memory Int) = some s' ∧
      c.buf = [0, 0, 0, 0] ∧ s'.blocks = [[1, 3, 2, 4], [1, 0, 0, 1], [1, 3, 2, 4]] ∧
      c.at 0 0 = some 0 ∧ s'.elem ⟨2, 0⟩ (0 + 0 * 2) = some 1 ∧
      c.at 0 0 ≠ s'.elem ⟨2, 0⟩ (0 + 0 * 2) :=
  ⟨_, _, rfl, rfl, rfl, rfl, rfl, rfl, by decide⟩

/-! ## Degenerate dimensions -/

/-- C7. If `m = 0` or `n = 0` then, for every `k`, all pointers `A`, `B`, `C` and every
memory (buffers of no element included), `cpu_gemm_naive(m, n, k, A, B, C)` completes
without failure, performs no buffer access (the access log is unchanged) and leaves `C`,
like the rest of the memory, entirely unchanged. -/
theorem cpu_gemm_naive_empty_result {T : Type} [Zero T] [Add T] [Mul T] (m n k : Int)
    (A B C : Ptr) (s : Memory T) (h : m = 0 ∨ n = 0) :
    cpu_gemm_naive m n k A B C s = some s := by
  rcases h with h | h
  · subst h
    rfl
  · subst h
    exact forFrom_id _ (fun j t => rfl) _ _ _

/-- Witness for C7: three rows, no column, a memory without any block. -/
theorem cpu_gemm_naive_empty_result_witness :
    ((3 : Int) = 0 ∨ (0 : Int) = 0) ∧
      cpu_gemm_naive 3 0 5 ⟨0, 0⟩ ⟨1, 0⟩ ⟨2, 0⟩ (⟨[], []⟩ : Memory Int)
        = some ⟨[], []⟩ :=
  ⟨Or.inr rfl,
    cpu_gemm_naive_empty_result (T := Int) 3 0 5 ⟨0, 0⟩ ⟨1, 0⟩ ⟨2, 0⟩ ⟨[], []⟩ (Or.inr rfl)⟩

/-- C16. Negative row or column counts make `cpu_gemm_naive` a no-op: for all `int`
values `m, n, k` with `m < 0` or `n < 0`, all pointers and every memory, the call
completes without reading `A` or `B` and without writing `C` (the access log is
unchanged), and `C`, like the rest of the memory, is unchanged. -/
theorem cpu_gemm_naive_negative_dims {T : Type} [Zero T] [Add T] [Mul T] (m n k : Int)
    (A B C : Ptr) (s : Memory T) (h : m < 0 ∨ n < 0) :
    cpu_gemm_naive m n k A B C s = some s := by
  rcases h with h | h
  · have hm : m.toNat = 0 := Int.toNat_of_nonpos (Int.le_of_lt h)
    simp [cpu_gemm_naive, forLoop, hm, forFrom]
  · have hn : n.toNat = 0 := Int.toNat_of_nonpos (Int.le_of_lt h)
    refine forFrom_id _ (fun j t => ?_) _ _ _
    simp [cpu_gemm_naive.rowStep, forLoop, hn, forFrom]

/-- Witness for C16: `m = -2` with `n = 3`, on input pointers without a block. -/
theorem cpu_gemm_naive_negative_dims_witness :
    ((-2 : Int) < 0 ∨ (3 : Int) < 0) ∧
      cpu_gemm_naive (-2) 3 4 ⟨1, 0⟩ ⟨2, 0⟩ ⟨0, 0⟩ (⟨[[5, 6]], []⟩ : Memory Int)
        = some ⟨[[5, 6]], []⟩ :=
  ⟨Or.inl (by decide),
    cpu_gemm_naive_negative_dims (T := Int) (-2) 3 4 ⟨1, 0⟩ ⟨2, 0⟩ ⟨0, 0⟩ ⟨[[5, 6]], []⟩
      (Or.inl (by decide))⟩

/-! ## Index arithmetic in 32 bits -/

/-- C15. Index arithmetic of `cpu_gemm_naive` does not overflow 32-bit signed `int` when
the matrices fit: for all `m, n, k ≥ 0` with `m*k`, `k*n` and `m*n` all at most
`2^31 - 1`, every intermediate value `i*lda`, `col*ldb`, `col*ldc`, `row + i*lda`,
`i + col*ldb` and `row + col*ldc` taken over `row < m`, `col < n`, `i < k` lies in
`[0, 2^31 - 1]`; such a value is its own 32-bit value, and the kernel with its 32-bit
index arithmetic returns what the kernel computed with mathematical integers returns, for
all pointers and on every memory. -/
theorem cpu_gemm_naive_index_no_overflow {T : Type} [Zero T] [Add T] [Mul T]
    (m n k : Nat) (hmk : ((m * k : Nat) : Int) ≤ INT_MAX)
    (hkn : ((k * n : Nat) : Int) ≤ INT_MAX) (hmn : ((m * n : Nat) : Int) ≤ INT_MAX) :
    (∀ row col : Nat, row < m → col < n →
      FitsInt ((col : Int) * (m : Int)) ∧ FitsInt ((row : Int) + (col : Int) * (m : Int))) ∧
    (∀ row col i : Nat, row < m → col < n → i < k →
      FitsInt ((i : Int) * (m : Int)) ∧ FitsInt ((col : Int) * (k : Int)) ∧
      FitsInt ((row : Int) + (i : Int) * (m : Int)) ∧
      FitsInt ((i : Int) + (col : Int) * (k : Int))) ∧
    (∀ x : Int, FitsInt x → wrapInt x = x) ∧
    (∀ (A B C : Ptr) (s : Memory T), cpu_gemm_naive (m : Int) (n : Int) (k : Int) A B C s
      = cpu_gemm_naive_ideal (m : Int) (n : Int) (k : Int) A B C s) := by
  refine ⟨fun row col hrow hcol => fitsInt_off hrow hcol hmn,
    fun row col i hrow hcol hi => ?_, fun x hx => wrapInt_of_fits hx,
    fun A B C s => cpu_gemm_naive_eq_ideal m n k A B C hmk hkn hmn s⟩
  obtain ⟨a1, a2⟩ := fitsInt_off hrow hi hmk
  obtain ⟨b1, b2⟩ := fitsInt_off hi hcol hkn
  exact ⟨a1, b1, a2, b2⟩

/-- Witness for C15: `m = n = 46340` and `k = 1`, where `m * n = 2147395600` is just
below `2^31 - 1 = 2147483647`. -/
theorem cpu_gemm_naive_index_no_overflow_witness :
    (((46340 * 46340 : Nat) : Int) ≤ INT_MAX) ∧
      ∀ (A B C : Ptr) (s : Memory Int),
        cpu_gemm_naive ((46340 : Nat) : Int) ((46340 : Nat) : Int) ((1 : Nat) : Int) A B C s
          = cpu_gemm_naive_ideal ((46340 : Nat) : Int) ((46340 : Nat) : Int)
              ((1 : Nat) : Int) A B C s :=
  ⟨by unfold INT_MAX; norm_num,
    (cpu_gemm_naive_index_no_overflow (T := Int) 46340 46340 1
      (by unfold INT_MAX; norm_num) (by unfold INT_MAX; norm_num)
      (by unfold INT_MAX; norm_num)).2.2.2⟩

/-! ## The contract of `cpu_gemm_naive` -/

/-- The call `cpu_gemm_naive(2, 1, 2^30 + 1, A, B, C)` fails for a pointer `A` to the
start of its block, whatever the memory: for `i = 2^30` the 32-bit product `i * lda` is
`-2^31`, and the read of `A` falls before the block. -/
theorem cpu_gemm_naive_none_k_large {T : Type} [Zero T] [Add T] [Mul T] (A B C : Ptr)
    (hA : A.off = 0) (s : Memory T) :
    cpu_gemm_naive ((2 : Nat) : Int) ((1 : Nat) : Int) ((1073741825 : Nat) : Int) A B C s
      = none :=
  cpu_gemm_naive_none 2 1 _ A B C 0 0 (by decide) (by decide)
    (fun t => cellStep_none_of_acc A B C 1073741825 _ _ _ _ _ 1073741824 (by decide)
      (fun st => accStep_none_of_offA A B _ _ _ _ _ (by rw [hA]; decide) st) t) s

/-- The call `cpu_gemm_naive(2, 2^30 + 1, 0, A, B, C)` fails for a pointer `C` to the
start of its block, whatever the memory: for `col = 2^30` the 32-bit product `col * ldc`
is `-2^31`, and the write of `C` falls before the block. -/
theorem cpu_gemm_naive_none_n_large {T : Type} [Zero T] [Add T] [Mul T] (A B C : Ptr)
    (hC : C.off = 0) (s : Memory T) :
    cpu_gemm_naive ((2 : Nat) : Int) ((1073741825 : Nat) : Int) ((0 : Nat) : Int) A B C s
      = none :=
  cpu_gemm_naive_none 2 1073741825 _ A B C 0 1073741824 (by decide) (by decide)
    (fun t => cellStep_none_of_offC A B C _ _ _ _ _ _ (by rw [hC]; decide) t) s

/-- Counterexample to C1 as stated, at two inputs. (1) `m = 2`, `n = 1`, `k = 2^30 + 1`
with `A` of `m*k`, `B` of `k*n` and `C` of `m*n` elements in three blocks: the call does
not complete, because `i * lda` overflows `int`. (2) `m = n = k = 2` with `C` the same
buffer as `A = [1,3,2,4]` and `B = [5,7,6,8]`: the call completes with `C[0 + 1*2] = 130`,
which is neither the sum `22` over the elements `A` had before the call nor the sum
`1154` over the elements `A` has after it. -/
theorem cpu_gemm_naive_matrix_product_counterexample :
    ((⟨[List.replicate 2147483650 0, List.replicate 1073741825 0, [0, 0]], []⟩ :
          Memory Int).Valid ⟨0, 0⟩ (2 * 1073741825) ∧
      (⟨[List.replicate 2147483650 0, List.replicate 1073741825 0, [0, 0]], []⟩ :
          Memory Int).Valid ⟨1, 0⟩ (1073741825 * 1) ∧
      (⟨[List.replicate 2147483650 0, List.replicate 1073741825 0, [0, 0]], []⟩ :
          Memory Int).Valid ⟨2, 0⟩ (2 * 1) ∧
      cpu_gemm_naive ((2 : Nat) : Int) ((1 : Nat) : Int) ((1073741825 : Nat) : Int)
        ⟨0, 0⟩ ⟨1, 0⟩ ⟨2, 0⟩
        (⟨[List.replicate 2147483650 0, List.replicate 1073741825 0, [0, 0]], []⟩ :
          Memory Int) = none) ∧
    ∃ s', cpu_gemm_naive 2 2 2 ⟨0, 0⟩ ⟨1, 0⟩ ⟨0, 0⟩
        (⟨[[1, 3, 2, 4], [5, 7, 6, 8]], []⟩ : Memory Int) = some s' ∧
      s'.elem ⟨0, 0⟩ (0 + 1 * 2) = some 130 ∧
      (∑ i in Finset.range 2,
        (⟨[[1, 3, 2, 4], [5, 7, 6, 8]], []⟩ : Memory Int).val ⟨0, 0⟩ (0 + i * 2)
          * (⟨[[1, 3, 2, 4], [5, 7, 6, 8]], []⟩ : Memory Int).val ⟨1, 0⟩ (i + 1 * 2)) = 22 ∧
      (∑ i in Finset.range 2,
        s'.val ⟨0, 0⟩ (0 + i * 2) * s'.val ⟨1, 0⟩ (i + 1 * 2)) = 1154 :=
  ⟨⟨valid_of_block (b := List.replicate 2147483650 0) rfl
        (by rw [List.length_replicate]),
      valid_of_block (b := List.replicate 1073741825 0) rfl
        (by rw [List.length_replicate]),
      valid_of_block (b := [0, 0]) rfl (by decide),
      cpu_gemm_naive_none_k_large _ _ _ rfl _⟩,
    _, rfl, rfl, by decide, by decide⟩

/-- C1, amended. For all `m, n, k ≥ 0` with `m*k`, `k*n` and `m*n` at most `2^31 - 1`,
every column-major buffer `A` of `m*k` elements, `B` of `k*n` elements and `C` of at
least `m*n` elements over a semiring, where the first `m*n` elements of `C` overlap
neither the `m*k` elements of `A` nor the `k*n` elements of `B`: the call
`cpu_gemm_naive(m, n, k, A, B, C)` completes, leaves `A` and `B` as they were, and
afterwards every cell with `row < m` and `col < n` satisfies
`C[row + col*m] = ∑ i ∈ [0,k), A[row + i*m] * B[i + col*k]`, the standard matrix product
of the matrices stored in `A` and `B`. -/
theorem cpu_gemm_naive_matrix_product {T : Type} [Semiring T] (m n k : Nat)
    (A B C : Ptr) (s : Memory T)
    (hmk : ((m * k : Nat) : Int) ≤ INT_MAX) (hkn : ((k * n : Nat) : Int) ≤ INT_MAX)
    (hmn : ((m * n : Nat) : Int) ≤ INT_MAX)
    (hA : s.Valid A (m * k)) (hB : s.Valid B (k * n)) (hC : s.Valid C (m * n))
    (hsA : NoOverlap A (m * k) C (m * n)) (hsB : NoOverlap B (k * n) C (m * n)) :
    ∃ s', cpu_gemm_naive (m : Int) (n : Int) (k : Int) A B C s = some s' ∧
      (∀ j, j < m * k → s'.elem A j = s.elem A j) ∧
      (∀ j, j < k * n → s'.elem B j = s.elem B j) ∧
      ∀ row col, row < m → col < n →
        s'.elem C (row + col * m)
          = some (∑ i in Finset.range k, s.val A (row + i * m) * s.val B (i + col * k)) := by
  obtain ⟨s', hs', h⟩ := cpu_gemm_naive_spec m n k A B C True s hmk hkn hmn hA hB hC
    (fun _ => ⟨hsA, hsB⟩)
  refine ⟨s', hs', h.input_eq A _ hsA, h.input_eq B _ hsB, fun row col hrow hcol => ?_⟩
  rw [h.hdone trivial row col ⟨hrow, hcol⟩, dotFold_eq_sum]

/-- Witness for C1: the product of `[[1,2],[3,4]]` and `[[5,6],[7,8]]`, stored
column-major in three blocks, has the entry `1*6 + 2*8 = 22` in row 0, column 1. -/
theorem cpu_gemm_naive_matrix_product_witness :
    ∃ s', cpu_gemm_naive ((2 : Nat) : Int) ((2 : Nat) : Int) ((2 : Nat) : Int)
        ⟨0, 0⟩ ⟨1, 0⟩ ⟨2, 0⟩
        (⟨[[1, 3, 2, 4], [5, 7, 6, 8], [0, 0, 0, 0]], []⟩ : Memory Int) = some s' ∧
      s'.elem ⟨2, 0⟩ (0 + 1 * 2) = some 22 := by
  obtain ⟨s', hs', -, -, h⟩ := cpu_gemm_naive_matrix_product (T := Int) 2 2 2
    ⟨0, 0⟩ ⟨1, 0⟩ ⟨2, 0⟩ ⟨[[1, 3, 2, 4], [5, 7, 6, 8], [0, 0, 0, 0]], []⟩
    (by decide) (by decide) (by decide)
    (valid_of_block (b := [1, 3, 2, 4]) rfl (by decide))
    (valid_of_block (b := [5, 7, 6, 8]) rfl (by decide))
    (valid_of_block (b := [0, 0, 0, 0]) rfl (by decide))
    (noOverlap_of_blk_ne _ _ (by decide)) (noOverlap_of_blk_ne _ _ (by decide))
  exact ⟨s', hs', by rw [h 0 1 (by decide) (by decide)]; rfl⟩

/-- Counterexample to C5 as stated, at two inputs. (1) `m = 2`, `n = 1`, `k = 2^30 + 1`
with buffers of the contract sizes in three blocks: the call does not complete, because
`i * lda` overflows `int`, so no cell holds the fold. (2) `m = n = k = 2` with `C` the
same buffer as `A = [1,3,2,4]` and `B = [5,7,6,8]`: the call completes with
`C[0 + 1*2] = 130`, while the fold `(0 + A[0]*B[2]) + A[2]*B[3]` over the elements that
`A` and `B` had is `22`. -/
theorem cpu_gemm_naive_accumulation_order_counterexample :
    ((⟨[List.replicate 2147483650 1, List.replicate 1073741825 1, [7, 7]], []⟩ :
          Memory Int).Valid ⟨0, 0⟩ (2 * 1073741825) ∧
      (⟨[List.replicate 2147483650 1, List.replicate 1073741825 1, [7, 7]], []⟩ :
          Memory Int).Valid ⟨1, 0⟩ (1073741825 * 1) ∧
      (⟨[List.replicate 2147483650 1, List.replicate 1073741825 1, [7, 7]], []⟩ :
          Memory Int).Valid ⟨2, 0⟩ (2 * 1) ∧
      cpu_gemm_naive ((2 : Nat) : Int) ((1 : Nat) : Int) ((1073741825 : Nat) : Int)
        ⟨0, 0⟩ ⟨1, 0⟩ ⟨2, 0⟩
        (⟨[List.replicate 2147483650 1, List.replicate 1073741825 1, [7, 7]], []⟩ :
          Memory Int) = none) ∧
    ∃ s', cpu_gemm_naive 2 2 2 ⟨0, 0⟩ ⟨1, 0⟩ ⟨0, 0⟩
        (⟨[[1, 3, 2, 4], [5, 7, 6, 8]], []⟩ : Memory Int) = some s' ∧
      s'.elem ⟨0, 0⟩ (0 + 1 * 2) = some 130 ∧
      (List.range 2).foldl (fun acc i => acc +
        (⟨[[1, 3, 2, 4], [5, 7, 6, 8]], []⟩ : Memory Int).val ⟨0, 0⟩ (0 + i * 2)
          * (⟨[[1, 3, 2, 4], [5, 7, 6, 8]], []⟩ : Memory Int).val ⟨1, 0⟩ (i + 1 * 2)) 0
        = 22 :=
  ⟨⟨valid_of_block (b := List.replicate 2147483650 1) rfl (by rw [List.length_replicate]),
      valid_of_block (b := List.replicate 1073741825 1) rfl (by rw [List.length_replicate]),
      valid_of_block (b := [7, 7]) rfl (by decide),
      cpu_gemm_naive_none_k_large _ _ _ rfl _⟩,
    _, rfl, rfl, by decide⟩

/-- C5, amended. For an element type with only a zero, an addition and a multiplication
(no law assumed), for `m*k`, `k*n`, `m*n` at most `2^31 - 1`, buffers of the contract
sizes and the first `m*n` elements of `C` overlapping neither the `m*k` elements of `A`
nor the `k*n` elements of `B`: the call completes and every output cell of
`cpu_gemm_naive` is the left-to-right fold in strictly increasing `i` starting from zero,
`C[row + col*m] = (...((0 + A[row]*B[col*k]) + A[row+m]*B[1+col*k]) + ...)
  + A[row+(k-1)*m]*B[(k-1)+col*k]`. -/
theorem cpu_gemm_naive_accumulation_order {T : Type} [Zero T] [Add T] [Mul T]
    (m n k : Nat) (A B C : Ptr) (s : Memory T)
    (hmk : ((m * k : Nat) : Int) ≤ INT_MAX) (hkn : ((k * n : Nat) : Int) ≤ INT_MAX)
    (hmn : ((m * n : Nat) : Int) ≤ INT_MAX)
    (hA : s.Valid A (m * k)) (hB : s.Valid B (k * n)) (hC : s.Valid C (m * n))
    (hsA : NoOverlap A (m * k) C (m * n)) (hsB : NoOverlap B (k * n) C (m * n)) :
    ∃ s', cpu_gemm_naive (m : Int) (n : Int) (k : Int) A B C s = some s' ∧
      ∀ row col, row < m → col < n →
        s'.elem C (row + col * m)
          = some ((List.range k).foldl
              (fun acc i => acc + s.val A (row + i * m) * s.val B (i + col * k)) 0) := by
  obtain ⟨s', hs', h⟩ := cpu_gemm_naive_spec m n k A B C True s hmk hkn hmn hA hB hC
    (fun _ => ⟨hsA, hsB⟩)
  exact ⟨s', hs', fun row col hrow hcol => h.hdone trivial row col ⟨hrow, hcol⟩⟩

/-- Witness for C5: for `A = [[1,2],[3,4]]` and `B = [[5,6],[7,8]]` the cell in row 1,
column 0 is `(0 + 3*5) + 4*7`. -/
theorem cpu_gemm_naive_accumulation_order_witness :
    ∃ s', cpu_gemm_naive ((2 : Nat) : Int) ((2 : Nat) : Int) ((2 : Nat) : Int)
        ⟨0, 0⟩ ⟨1, 0⟩ ⟨2, 0⟩
        (⟨[[1, 3, 2, 4], [5, 7, 6, 8], [0, 0, 0, 0]], []⟩ : Memory Int) = some s' ∧
      s'.elem ⟨2, 0⟩ (1 + 0 * 2) = some ((0 + 3 * 5) + 4 * 7 : Int) := by
  obtain ⟨s', hs', h⟩ := cpu_gemm_naive_accumulation_order (T := Int) 2 2 2
    ⟨0, 0⟩ ⟨1, 0⟩ ⟨2, 0⟩ ⟨[[1, 3, 2, 4], [5, 7, 6, 8], [0, 0, 0, 0]], []⟩
    (by decide) (by decide) (by decide)
    (valid_of_block (b := [1, 3, 2, 4]) rfl (by decide))
    (valid_of_block (b := [5, 7, 6, 8]) rfl (by decide))
    (valid_of_block (b := [0, 0, 0, 0]) rfl (by decide))
    (noOverlap_of_blk_ne _ _ (by decide)) (noOverlap_of_blk_ne _ _ (by decide))
  exact ⟨s', hs', by rw [h 1 0 (by decide) (by decide)]; rfl⟩

/-! ## Frame of `cpu_gemm_naive` -/

/-- Counterexample to C4 as stated, at two inputs. (1) `m = n = k = 2` with `C` the same
buffer as `A = [1,3,2,4]` and `B = [5,7,6,8]`: the call completes and `A` has changed, it
holds `[19,43,130,290]`. (2) `m = 2`, `n = 2^30 + 1`, `k = 0` with `C` of `m*n`
elements: the 32-bit write offset `0 + 2^30 * 2` is `-2^31`, outside `[0, m*n)`, and the
call does not complete. -/
theorem cpu_gemm_naive_frame_counterexample :
    (∃ s', cpu_gemm_naive 2 2 2 ⟨0, 0⟩ ⟨1, 0⟩ ⟨0, 0⟩
        (⟨[[1, 3, 2, 4], [5, 7, 6, 8]], []⟩ : Memory Int) = some s' ∧
      s'.blocks = [[19, 43, 130, 290], [5, 7, 6, 8]] ∧
      s'.elem ⟨0, 0⟩ 2 ≠ (⟨[[1, 3, 2, 4], [5, 7, 6, 8]], []⟩ : Memory Int).elem ⟨0, 0⟩ 2) ∧
    ((⟨[[], [], List.replicate 2147483650 5], []⟩ : Memory Int).Valid ⟨2, 0⟩
        (2 * 1073741825) ∧
      wrapInt (0 + wrapInt (1073741824 * 2)) = -2147483648 ∧
      cpu_gemm_naive ((2 : Nat) : Int) ((1073741825 : Nat) : Int) ((0 : Nat) : Int)
        ⟨0, 0⟩ ⟨1, 0⟩ ⟨2, 0⟩
        (⟨[[], [], List.replicate 2147483650 5], []⟩ : Memory Int) = none) :=
  ⟨⟨_, rfl, rfl, by decide⟩,
    valid_of_block (b := List.replicate 2147483650 5) rfl (by rw [List.length_replicate]),
    by decide, cpu_gemm_naive_none_n_large _ _ _ rfl _⟩

/-- C4, amended. `cpu_gemm_naive` writes only inside the `m × n` result at `C`: for all
`m, n, k ≥ 0` with `m*k`, `k*n`, `m*n` at most `2^31 - 1` and buffers of the contract
sizes, the call completes, every write uses an offset of `C` in `[0, m*n)`, and every
element of memory outside the first `m*n` elements of `C` keeps its value from before the
call: in particular every element of `C` at an offset `≥ m*n`, and `A` and `B` whenever
their elements do not overlap the first `m*n` elements of `C`. -/
theorem cpu_gemm_naive_frame {T : Type} [Zero T] [Add T] [Mul T] (m n k : Nat)
    (A B C : Ptr) (blocks : List (List T))
    (hmk : ((m * k : Nat) : Int) ≤ INT_MAX) (hkn : ((k * n : Nat) : Int) ≤ INT_MAX)
    (hmn : ((m * n : Nat) : Int) ≤ INT_MAX)
    (hA : (⟨blocks, []⟩ : Memory T).Valid A (m * k))
    (hB : (⟨blocks, []⟩ : Memory T).Valid B (k * n))
    (hC : (⟨blocks, []⟩ : Memory T).Valid C (m * n)) :
    ∃ s', cpu_gemm_naive (m : Int) (n : Int) (k : Int) A B C ⟨blocks, []⟩ = some s' ∧
      (∀ off, Access.writeC off ∈ s'.trace → 0 ≤ off ∧ off < ((m * n : Nat) : Int)) ∧
      (∀ blk addr, ¬ (blk = C.blk ∧ C.off ≤ addr ∧ addr < C.off + m * n) →
        cell s'.blocks blk addr = cell blocks blk addr) ∧
      (∀ off, m * n ≤ off → s'.elem C off = (⟨blocks, []⟩ : Memory T).elem C off) ∧
      (NoOverlap A (m * k) C (m * n) →
        ∀ j, j < m * k → s'.elem A j = (⟨blocks, []⟩ : Memory T).elem A j) ∧
      (NoOverlap B (k * n) C (m * n) →
        ∀ j, j < k * n → s'.elem B j = (⟨blocks, []⟩ : Memory T).elem B j) := by
  obtain ⟨s', hs', h⟩ := cpu_gemm_naive_spec m n k A B C False ⟨blocks, []⟩ hmk hkn hmn
    hA hB hC (fun hf => hf.elim)
  have htr : s'.trace = gemmTrace m n k := by simpa using h.htrace
  refine ⟨s', hs', fun off hoff => ?_, fun blk addr hout => h.outside_eq blk addr hout,
    fun off hoff => ?_, fun hsA j hj => h.input_eq A _ hsA j hj,
    fun hsB j hj => h.input_eq B _ hsB j hj⟩
  · rw [htr] at hoff
    exact ⟨(writeC_mem_gemmTrace hoff).1, (writeC_mem_gemmTrace hoff).2.1⟩
  · exact h.outside_eq C.blk (C.off + off) (by omega)

/-- Witness for C4: a `2 × 2` product written at the start of a block of six elements
leaves the two trailing elements and the input buffers as they were. -/
theorem cpu_gemm_naive_frame_witness :
    ∃ s', cpu_gemm_naive ((2 : Nat) : Int) ((2 : Nat) : Int) ((2 : Nat) : Int)
        ⟨0, 0⟩ ⟨1, 0⟩ ⟨2, 0⟩
        (⟨[[1, 3, 2, 4], [5, 7, 6, 8], [9, 9, 9, 9, 7, 8]], []⟩ : Memory Int) = some s' ∧
      s'.elem ⟨2, 0⟩ 4 = some 7 ∧ s'.elem ⟨2, 0⟩ 5 = some 8 ∧
      s'.elem ⟨0, 0⟩ 3 = some 4 := by
  obtain ⟨s', hs', -, -, hC, hA, -⟩ := cpu_gemm_naive_frame (T := Int) 2 2 2
    ⟨0, 0⟩ ⟨1, 0⟩ ⟨2, 0⟩ [[1, 3, 2, 4], [5, 7, 6, 8], [9, 9, 9, 9, 7, 8]]
    (by decide) (by decide) (by decide)
    (valid_of_block (b := [1, 3, 2, 4]) rfl (by decide))
    (valid_of_block (b := [5, 7, 6, 8]) rfl (by decide))
    (valid_of_block (b := [9, 9, 9, 9, 7, 8]) rfl (by decide))
  exact ⟨s', hs', by rw [hC 4 (by decide)]; rfl, by rw [hC 5 (by decide)]; rfl,
    by rw [hA (noOverlap_of_blk_ne _ _ (by decide)) 3 (by decide)]; rfl⟩

/-! ## `k = 0` -/

/-- Counterexample to C6 as stated: `m = 2`, `n = 2^30 + 1`, `k = 0` and a buffer `C` of
`m*n = 2^31 + 2` elements. For `col = 2^30` the 32-bit offset `row + col * ldc` is
`-2^31`, the write falls before `C` and the call does not complete, so the first `m*n`
elements of `C` are not all set to zero. -/
theorem cpu_gemm_naive_k_zero_counterexample :
    (⟨[List.replicate 2147483650 9], []⟩ : Memory Int).Valid ⟨0, 0⟩ (2 * 1073741825) ∧
      cpu_gemm_naive ((2 : Nat) : Int) ((1073741825 : Nat) : Int) 0 ⟨1, 0⟩ ⟨2, 0⟩ ⟨0, 0⟩
        (⟨[List.replicate 2147483650 9], []⟩ : Memory Int) = none :=
  ⟨valid_of_block (b := List.replicate 2147483650 9) rfl (by rw [List.length_replicate]),
    cpu_gemm_naive_none_n_large _ _ _ rfl _⟩

/-- C6, amended. For all `m, n ≥ 0` with `m*n` at most `2^31 - 1` and every buffer `C` of
at least `m*n` elements, the call `cpu_gemm_naive(m, n, 0, A, B, C)` completes and sets
every one of the first `m*n` elements of `C` to the additive identity of `T`, without
reading any element of `A` or `B`: the pointers `A` and `B` are arbitrary (they need not
point to any element) and the access log of the call holds no read. -/
theorem cpu_gemm_naive_k_zero {T : Type} [Zero T] [Add T] [Mul T] (m n : Nat)
    (A B C : Ptr) (blocks : List (List T)) (hmn : ((m * n : Nat) : Int) ≤ INT_MAX)
    (hC : (⟨blocks, []⟩ : Memory T).Valid C (m * n)) :
    ∃ s', cpu_gemm_naive (m : Int) (n : Int) 0 A B C ⟨blocks, []⟩ = some s' ∧
      (∀ off, off < m * n → s'.elem C off = some 0) ∧
      (∀ off, Access.readA off ∉ s'.trace ∧ Access.readB off ∉ s'.trace) := by
  obtain ⟨s', hs', h⟩ := cpu_gemm_naive_spec m n 0 A B C True ⟨blocks, []⟩
    (by unfold INT_MAX; simp) (by unfold INT_MAX; simp) hmn
    (fun j hj => by simp at hj) (fun j hj => by simp at hj) hC
    (fun _ => ⟨fun i j hi => by simp at hi, fun i j hi => by simp at hi⟩)
  refine ⟨s', by simpa using hs', fun off hoff => ?_, fun off => ?_⟩
  · rw [h.output_eq off hoff]
    rfl
  · have htr : s'.trace = gemmTrace m n 0 := by simpa using h.htrace
    rw [htr]
    constructor
    · intro hmem
      obtain ⟨o, ho⟩ := gemmTrace_k_zero m n _ hmem
      cases ho
    · intro hmem
      obtain ⟨o, ho⟩ := gemmTrace_k_zero m n _ hmem
      cases ho

/-- Witness for C6: a `2 × 3` result with `k = 0`, input pointers without a block, and an
output block of seven elements. -/
theorem cpu_gemm_naive_k_zero_witness :
    ∃ s', cpu_gemm_naive ((2 : Nat) : Int) ((3 : Nat) : Int) 0 ⟨1, 0⟩ ⟨2, 0⟩ ⟨0, 0⟩
        (⟨[[9, 8, 7, 6, 5, 4, 3]], []⟩ : Memory Int) = some s' ∧
      (∀ off, off < 2 * 3 → s'.elem ⟨0, 0⟩ off = some 0) ∧
      (∀ off, Access.readA off ∉ s'.trace ∧ Access.readB off ∉ s'.trace) :=
  cpu_gemm_naive_k_zero (T := Int) 2 3 ⟨1, 0⟩ ⟨2, 0⟩ ⟨0, 0⟩ [[9, 8, 7, 6, 5, 4, 3]]
    (by decide) (valid_of_block (b := [9, 8, 7, 6, 5, 4, 3]) rfl (by decide))

/-! ## Bounds safety -/

/-- Counterexample to C12 as stated: `m = 2`, `n = 1`, `k = 2^30 + 1` with `A` of `m*k`,
`B` of `k*n` and `C` of `m*n` elements. For `i = 2^30` the 32-bit offset `row + i * lda`
is `-2^31`, which is not in `[0, m*k)`: the read of `A` is out of bounds and the call
reaches the out-of-bounds result. -/
theorem cpu_gemm_naive_bounds_safe_counterexample :
    (⟨[List.replicate 2147483650 3, List.replicate 1073741825 4, [0, 0]], []⟩ :
        Memory Int).Valid ⟨0, 0⟩ (2 * 1073741825) ∧
    (⟨[List.replicate 2147483650 3, List.replicate 1073741825 4, [0, 0]], []⟩ :
        Memory Int).Valid ⟨1, 0⟩ (1073741825 * 1) ∧
    (⟨[List.replicate 2147483650 3, List.replicate 1073741825 4, [0, 0]], []⟩ :
        Memory Int).Valid ⟨2, 0⟩ (2 * 1) ∧
    wrapInt (0 + wrapInt (1073741824 * 2)) = -2147483648 ∧
    cpu_gemm_naive ((2 : Nat) : Int) ((1 : Nat) : Int) ((1073741825 : Nat) : Int)
      ⟨0, 0⟩ ⟨1, 0⟩ ⟨2, 0⟩
      (⟨[List.replicate 2147483650 3, List.replicate 1073741825 4, [0, 0]], []⟩ :
        Memory Int) = none :=
  ⟨valid_of_block (b := List.replicate 2147483650 3) rfl (by rw [List.length_replicate]),
    valid_of_block (b := List.replicate 1073741825 4) rfl (by rw [List.length_replicate]),
    valid_of_block (b := [0, 0]) rfl (by decide),
    by decide, cpu_gemm_naive_none_k_large _ _ _ rfl _⟩

/-- C12, amended. Bounds safety of `cpu_gemm_naive`: for all `m, n, k ≥ 0` with `m*k`,
`k*n`, `m*n` at most `2^31 - 1`, if `A` has at least `m*k` elements, `B` at least `k*n`
and `C` at least `m*n`, then the call completes (the out-of-bounds result `none` is not
reached) and every offset it accesses is in range: each read of `A` uses an offset in
`[0, m*k)`, each read of `B` one in `[0, k*n)` and each write of `C` one in `[0, m*n)`,
each at an existing element; these offsets are `row + i*m`, `i + col*k` and
`row + col*m` with `row < m`, `col < n`, `i < k`. -/
theorem cpu_gemm_naive_bounds_safe {T : Type} [Zero T] [Add T] [Mul T] (m n k : Nat)
    (A B C : Ptr) (blocks : List (List T))
    (hmk : ((m * k : Nat) : Int) ≤ INT_MAX) (hkn : ((k * n : Nat) : Int) ≤ INT_MAX)
    (hmn : ((m * n : Nat) : Int) ≤ INT_MAX)
    (hA : (⟨blocks, []⟩ : Memory T).Valid A (m * k))
    (hB : (⟨blocks, []⟩ : Memory T).Valid B (k * n))
    (hC : (⟨blocks, []⟩ : Memory T).Valid C (m * n)) :
    (∀ row col i, row < m → col < n → i < k →
      row + i * m < m * k ∧ i + col * k < k * n ∧ row + col * m < m * n) ∧
    ∃ s', cpu_gemm_naive (m : Int) (n : Int) (k : Int) A B C ⟨blocks, []⟩ = some s' ∧
      s'.trace = gemmTrace m n k ∧
      (∀ off, Access.readA off ∈ s'.trace →
        0 ≤ off ∧ off < ((m * k : Nat) : Int) ∧
          ((⟨blocks, []⟩ : Memory T).elem A off.toNat).isSome = true) ∧
      (∀ off, Access.readB off ∈ s'.trace →
        0 ≤ off ∧ off < ((k * n : Nat) : Int) ∧
          ((⟨blocks, []⟩ : Memory T).elem B off.toNat).isSome = true) ∧
      (∀ off, Access.writeC off ∈ s'.trace →
        0 ≤ off ∧ off < ((m * n : Nat) : Int) ∧
          ((⟨blocks, []⟩ : Memory T).elem C off.toNat).isSome = true) := by
  refine ⟨fun row col i hrow hcol hi =>
    ⟨offA_lt hrow hi, offB_lt hi hcol, offA_lt hrow hcol⟩, ?_⟩
  obtain ⟨s', hs', h⟩ := cpu_gemm_naive_spec m n k A B C False ⟨blocks, []⟩ hmk hkn hmn
    hA hB hC (fun hf => hf.elim)
  have htr : s'.trace = gemmTrace m n k := by simpa using h.htrace
  refine ⟨s', hs', htr, fun off hoff => ?_, fun off hoff => ?_, fun off hoff => ?_⟩
  · rw [htr] at hoff
    obtain ⟨h1, h2, h3⟩ := readA_mem_gemmTrace hoff
    exact ⟨h1, h2, hA _ h3⟩
  · rw [htr] at hoff
    obtain ⟨h1, h2, h3⟩ := readB_mem_gemmTrace hoff
    exact ⟨h1, h2, hB _ h3⟩
  · rw [htr] at hoff
    obtain ⟨h1, h2, h3⟩ := writeC_mem_gemmTrace hoff
    exact ⟨h1, h2, hC _ h3⟩

/-- Witness for C12: a `2 × 2` product with `k = 3`. -/
theorem cpu_gemm_naive_bounds_safe_witness :
    ∃ s', cpu_gemm_naive ((2 : Nat) : Int) ((2 : Nat) : Int) ((3 : Nat) : Int)
        ⟨0, 0⟩ ⟨1, 0⟩ ⟨2, 0⟩
        (⟨[[1, 2, 3, 4, 5, 6], [1, 2, 3, 4, 5, 6], [0, 0, 0, 0]], []⟩ : Memory Int)
        = some s' ∧
      s'.trace = gemmTrace 2 2 3 ∧
      (∀ off, Access.readA off ∈ s'.trace → 0 ≤ off ∧ off < ((2 * 3 : Nat) : Int)) ∧
      (∀ off, Access.readB off ∈ s'.trace → 0 ≤ off ∧ off < ((3 * 2 : Nat) : Int)) ∧
      (∀ off, Access.writeC off ∈ s'.trace → 0 ≤ off ∧ off < ((2 * 2 : Nat) : Int)) := by
  obtain ⟨s', hs', htr, hA, hB, hC⟩ := (cpu_gemm_naive_bounds_safe (T := Int) 2 2 3
    ⟨0, 0⟩ ⟨1, 0⟩ ⟨2, 0⟩ [[1, 2, 3, 4, 5, 6], [1, 2, 3, 4, 5, 6], [0, 0, 0, 0]]
    (by decide) (by decide) (by decide)
    (valid_of_block (b := [1, 2, 3, 4, 5, 6]) rfl (by decide))
    (valid_of_block (b := [1, 2, 3, 4, 5, 6]) rfl (by decide))
    (valid_of_block (b := [0, 0, 0, 0]) rfl (by decide))).2
  exact ⟨s', hs', htr, fun off h => ⟨(hA off h).1, (hA off h).2.1⟩,
    fun off h => ⟨(hB off h).1, (hB off h).2.1⟩,
    fun off h => ⟨(hC off h).1, (hC off h).2.1⟩⟩

/-! ## Write-once output -/

/-- Counterexample to C13 as stated: `m = 2`, `n = 2^30 + 1`, `k = 0` and a buffer `C` of
`m*n = 2^31 + 2` elements. The offset map is computed in 32-bit `int`: for `row = 0`,
`col = 2^30` it gives `-2^31` instead of `2^31`, the write falls before `C` and the call
does not complete, so the offsets of `C` below `m*n` are not each written once. -/
theorem cpu_gemm_naive_write_once_counterexample :
    (⟨[List.replicate 2147483650 1], []⟩ : Memory Int).Valid ⟨0, 0⟩ (2 * 1073741825) ∧
      wrapInt (0 + wrapInt (1073741824 * 2)) ≠ 0 + 1073741824 * 2 ∧
      cpu_gemm_naive ((2 : Nat) : Int) ((1073741825 : Nat) : Int) ((0 : Nat) : Int)
        ⟨1, 0⟩ ⟨2, 0⟩ ⟨0, 0⟩
        (⟨[List.replicate 2147483650 1], []⟩ : Memory Int) = none :=
  ⟨valid_of_block (b := List.replicate 2147483650 1) rfl (by rw [List.length_replicate]),
    by decide, cpu_gemm_naive_none_n_large _ _ _ rfl _⟩

/-- C13, amended. `C` is write-once in `cpu_gemm_naive`: for all `m, n ≥ 0` the offset map
`(row, col) ↦ row + col*m` is a bijection from `[0,m) × [0,n)` onto `[0, m*n)` (it maps
into `[0, m*n)`, is injective and reaches every offset below `m*n`), and, when `m*k`,
`k*n` and `m*n` are at most `2^31 - 1` and the buffers have the contract sizes, during one
call every offset of `C` below `m*n` is written exactly once, while no other offset is
written. -/
theorem cpu_gemm_naive_write_once {T : Type} [Zero T] [Add T] [Mul T] (m n k : Nat)
    (A B C : Ptr) (blocks : List (List T))
    (hmk : ((m * k : Nat) : Int) ≤ INT_MAX) (hkn : ((k * n : Nat) : Int) ≤ INT_MAX)
    (hmn : ((m * n : Nat) : Int) ≤ INT_MAX)
    (hA : (⟨blocks, []⟩ : Memory T).Valid A (m * k))
    (hB : (⟨blocks, []⟩ : Memory T).Valid B (k * n))
    (hC : (⟨blocks, []⟩ : Memory T).Valid C (m * n)) :
    (∀ row col, row < m → col < n → row + col * m < m * n) ∧
    (∀ row col row' col', row < m → col < n → row' < m → col' < n →
      row + col * m = row' + col' * m → row = row' ∧ col = col') ∧
    (∀ off, off < m * n → ∃ row col, row < m ∧ col < n ∧ row + col * m = off) ∧
    ∃ s', cpu_gemm_naive (m : Int) (n : Int) (k : Int) A B C ⟨blocks, []⟩ = some s' ∧
      (∀ off : Nat, off < m * n → s'.trace.count (Access.writeC (off : Int)) = 1) ∧
      (∀ off : Int, Access.writeC off ∈ s'.trace →
        0 ≤ off ∧ off < ((m * n : Nat) : Int)) := by
  refine ⟨fun row col hrow hcol => offA_lt hrow hcol,
    fun row col row' col' hrow _ hrow' _ h => offC_inj hrow hrow' h,
    fun off hoff => ?_, ?_⟩
  · obtain ⟨h1, h2, h3⟩ := off_decomp hoff
    exact ⟨off % m, off / m, h1, h2, h3.symm⟩
  · obtain ⟨s', hs', h⟩ := cpu_gemm_naive_spec m n k A B C False ⟨blocks, []⟩ hmk hkn hmn
      hA hB hC (fun hf => hf.elim)
    have htr : s'.trace = gemmTrace m n k := by simpa using h.htrace
    refine ⟨s', hs', fun off hoff => ?_, fun off hoff => ?_⟩
    · rw [htr, count_gemmTrace_write, if_pos hoff]
    · rw [htr] at hoff
      exact ⟨(writeC_mem_gemmTrace hoff).1, (writeC_mem_gemmTrace hoff).2.1⟩

/-- Witness for C13: in a `2 × 3` result with `k = 1` the offset `4` is written once. -/
theorem cpu_gemm_naive_write_once_witness :
    ∃ s', cpu_gemm_naive ((2 : Nat) : Int) ((3 : Nat) : Int) ((1 : Nat) : Int)
        ⟨0, 0⟩ ⟨1, 0⟩ ⟨2, 0⟩
        (⟨[[1, 2], [3, 4, 5], [0, 0, 0, 0, 0, 0]], []⟩ : Memory Int) = some s' ∧
      s'.trace.count (Access.writeC ((4 : Nat) : Int)) = 1 := by
  obtain ⟨s', hs', h, -⟩ := (cpu_gemm_naive_write_once (T := Int) 2 3 1
    ⟨0, 0⟩ ⟨1, 0⟩ ⟨2, 0⟩ [[1, 2], [3, 4, 5], [0, 0, 0, 0, 0, 0]]
    (by decide) (by decide) (by decide)
    (valid_of_block (b := [1, 2]) rfl (by decide))
    (valid_of_block (b := [3, 4, 5]) rfl (by decide))
    (valid_of_block (b := [0, 0, 0, 0, 0, 0]) rfl (by decide))).2.2.2
  exact ⟨s', hs', h 4 (by decide)⟩

/-! ## Independence from the prior output buffer -/

/-- Counterexample to C14 as stated: `m = 2`, `n = 1`, `k = 2^30 + 1`, the same `A` and
`B` of the contract sizes and two output buffers `[0,0]` and `[5,6]` in blocks of their
own. Neither call completes, because `i * lda` overflows `int` and the read of `A` falls
before `A`; there are no equal first `m*n` elements after the two calls. -/
theorem cpu_gemm_naive_output_independent_counterexample :
    (⟨[List.replicate 2147483650 2, List.replicate 1073741825 3, [0, 0]], []⟩ :
        Memory Int).Valid ⟨0, 0⟩ (2 * 1073741825) ∧
    (⟨[List.replicate 2147483650 2, List.replicate 1073741825 3, [0, 0]], []⟩ :
        Memory Int).Valid ⟨1, 0⟩ (1073741825 * 1) ∧
    (⟨[List.replicate 2147483650 2, List.replicate 1073741825 3, [0, 0]], []⟩ :
        Memory Int).Valid ⟨2, 0⟩ (2 * 1) ∧
    (⟨[List.replicate 2147483650 2, List.replicate 1073741825 3, [5, 6]], []⟩ :
        Memory Int).Valid ⟨2, 0⟩ (2 * 1) ∧
    cpu_gemm_naive ((2 : Nat) : Int) ((1 : Nat) : Int) ((1073741825 : Nat) : Int)
      ⟨0, 0⟩ ⟨1, 0⟩ ⟨2, 0⟩
      (⟨[List.replicate 2147483650 2, List.replicate 1073741825 3, [0, 0]], []⟩ :
        Memory Int) = none ∧
    cpu_gemm_naive ((2 : Nat) : Int) ((1 : Nat) : Int) ((1073741825 : Nat) : Int)
      ⟨0, 0⟩ ⟨1, 0⟩ ⟨2, 0⟩
      (⟨[List.replicate 2147483650 2, List.replicate 1073741825 3, [5, 6]], []⟩ :
        Memory Int) = none :=
  ⟨valid_of_block (b := List.replicate 2147483650 2) rfl (by rw [List.length_replicate]),
    valid_of_block (b := List.replicate 1073741825 3) rfl (by rw [List.length_replicate]),
    valid_of_block (b := [0, 0]) rfl (by decide),
    valid_of_block (b := [5, 6]) rfl (by decide),
    cpu_gemm_naive_none_k_large _ _ _ rfl _, cpu_gemm_naive_none_k_large _ _ _ rfl _⟩

/-- C14, amended. The result of `cpu_gemm_naive` does not depend on the prior contents of
the output buffer: for all `m, n, k ≥ 0` with `m*k`, `k*n`, `m*n` at most `2^31 - 1`, two
memories in which `A` and `B` hold the same `m*k` and `k*n` elements, and an output buffer
`C` of at least `m*n` elements in each that overlaps neither `A` nor `B`, both calls
complete and the first `m*n` elements of `C` after the two calls exist and are equal. -/
theorem cpu_gemm_naive_output_independent {T : Type} [Zero T] [Add T] [Mul T]
    (m n k : Nat) (A B C : Ptr) (s1 s2 : Memory T)
    (hmk : ((m * k : Nat) : Int) ≤ INT_MAX) (hkn : ((k * n : Nat) : Int) ≤ INT_MAX)
    (hmn : ((m * n : Nat) : Int) ≤ INT_MAX)
    (hA : s1.Valid A (m * k)) (hB : s1.Valid B (k * n))
    (hC1 : s1.Valid C (m * n)) (hC2 : s2.Valid C (m * n))
    (hAeq : ∀ j, j < m * k → s2.elem A j = s1.elem A j)
    (hBeq : ∀ j, j < k * n → s2.elem B j = s1.elem B j)
    (hsA : NoOverlap A (m * k) C (m * n)) (hsB : NoOverlap B (k * n) C (m * n)) :
    ∃ s1' s2', cpu_gemm_naive (m : Int) (n : Int) (k : Int) A B C s1 = some s1' ∧
      cpu_gemm_naive (m : Int) (n : Int) (k : Int) A B C s2 = some s2' ∧
      ∀ off, off < m * n → ∃ v, s1'.elem C off = some v ∧ s2'.elem C off = some v := by
  have hA2 : s2.Valid A (m * k) := fun j hj => by rw [hAeq j hj]; exact hA j hj
  have hB2 : s2.Valid B (k * n) := fun j hj => by rw [hBeq j hj]; exact hB j hj
  obtain ⟨s1', hs1, h1⟩ := cpu_gemm_naive_spec m n k A B C True s1 hmk hkn hmn hA hB hC1
    (fun _ => ⟨hsA, hsB⟩)
  obtain ⟨s2', hs2, h2⟩ := cpu_gemm_naive_spec m n k A B C True s2 hmk hkn hmn hA2 hB2 hC2
    (fun _ => ⟨hsA, hsB⟩)
  refine ⟨s1', s2', hs1, hs2, fun off hoff => ?_⟩
  obtain ⟨hrow, hcol, -⟩ := off_decomp hoff
  refine ⟨_, h1.output_eq off hoff, ?_⟩
  rw [h2.output_eq off hoff]
  congr 1
  refine dotFold_congr m k _ _ _ _ _ _ (fun i hi => ?_) (fun i hi => ?_)
  · unfold Memory.val
    rw [hAeq _ (offA_lt hrow hi)]
  · unfold Memory.val
    rw [hBeq _ (offB_lt hi hcol)]

/-- Witness for C14: the same `2 × 2` product written over two different buffers. -/
theorem cpu_gemm_naive_output_independent_witness :
    ∃ s1' s2', cpu_gemm_naive ((2 : Nat) : Int) ((2 : Nat) : Int) ((2 : Nat) : Int)
        ⟨0, 0⟩ ⟨1, 0⟩ ⟨2, 0⟩
        (⟨[[1, 3, 2, 4], [5, 7, 6, 8], [0, 0, 0, 0]], []⟩ : Memory Int) = some s1' ∧
      cpu_gemm_naive ((2 : Nat) : Int) ((2 : Nat) : Int) ((2 : Nat) : Int)
        ⟨0, 0⟩ ⟨1, 0⟩ ⟨2, 0⟩
        (⟨[[1, 3, 2, 4], [5, 7, 6, 8], [9, 8, 7, 6, 5]], []⟩ : Memory Int) = some s2' ∧
      ∀ off, off < 2 * 2 →
        ∃ v, s1'.elem ⟨2, 0⟩ off = some v ∧ s2'.elem ⟨2, 0⟩ off = some v :=
  cpu_gemm_naive_output_independent (T := Int) 2 2 2 ⟨0, 0⟩ ⟨1, 0⟩ ⟨2, 0⟩
    ⟨[[1, 3, 2, 4], [5, 7, 6, 8], [0, 0, 0, 0]], []⟩
    ⟨[[1, 3, 2, 4], [5, 7, 6, 8], [9, 8, 7, 6, 5]], []⟩
    (by decide) (by decide) (by decide)
    (valid_of_block (b := [1, 3, 2, 4]) rfl (by decide))
    (valid_of_block (b := [5, 7, 6, 8]) rfl (by decide))
    (valid_of_block (b := [0, 0, 0, 0]) rfl (by decide))
    (valid_of_block (b := [9, 8, 7, 6, 5]) rfl (by decide))
    (fun _ _ => rfl) (fun _ _ => rfl)
    (noOverlap_of_blk_ne _ _ (by decide)) (noOverlap_of_blk_ne _ _ (by decide))

/-! ## Algebraic laws in a semiring -/

section Semiring

variable {T : Type} [Semiring T]

theorem identityBuf_length (k : Nat) : (identityBuf T k).length = k * k := by
  simp [identityBuf]

/-- The element `(i, j)` of the identity buffer. -/
theorem identityBuf_getElem? (k i j : Nat) (hi : i < k) (hj : j < k) :
    (identityBuf T k)[i + j * k]? = some (if i = j then 1 else 0) := by
  have hlt : i + j * k < k * k := offA_lt hi hj
  have hmod : (i + j * k) % k = i := by
    rw [Nat.add_mul_mod_self_right, Nat.mod_eq_of_lt hi]
  have hdiv : (i + j * k) / k = j := by
    rw [Nat.add_mul_div_right _ _ (by omega : 0 < k), Nat.div_eq_of_lt hi, Nat.zero_add]
  simp [identityBuf, List.getElem?_range hlt, hmod, hdiv]

/-- A buffer that holds the identity matrix is valid and has the values of the identity. -/
theorem identity_val (k : Nat) (s : Memory T) (p : Ptr)
    (hI : ∀ j, j < k * k → s.elem p j = (identityBuf T k)[j]?) :
    s.Valid p (k * k) ∧
      ∀ i j, i < k → j < k → s.val p (i + j * k) = if i = j then 1 else 0 := by
  constructor
  · intro j hj
    rw [hI j hj, List.getElem?_eq_getElem (by rw [identityBuf_length]; exact hj)]
    rfl
  · intro i j hi hj
    exact val_of_elem (by rw [hI _ (offA_lt hi hj), identityBuf_getElem? k i j hi hj])

/-- Summing against a column of the identity selects one term. -/
theorem sum_mul_identity_col (k col : Nat) (hcol : col < k) (f b : Nat → T)
    (hb : ∀ i, i < k → b (i + col * k) = if i = col then 1 else 0) :
    ∑ i in Finset.range k, f i * b (i + col * k) = f col := by
  have h : ∀ i ∈ Finset.range k, f i * b (i + col * k) = if i = col then f i else 0 := by
    intro i hi
    rw [hb i (Finset.mem_range.1 hi)]
    split <;> simp
  rw [Finset.sum_congr rfl h, Finset.sum_ite_eq' (Finset.range k) col f]
  simp [hcol]

/-- Summing against a row of the identity selects one term. -/
theorem sum_identity_row_mul (k row : Nat) (hrow : row < k) (f a : Nat → T)
    (ha : ∀ i, i < k → a (row + i * k) = if row = i then 1 else 0) :
    ∑ i in Finset.range k, a (row + i * k) * f i = f row := by
  have h : ∀ i ∈ Finset.range k, a (row + i * k) * f i = if row = i then f i else 0 := by
    intro i hi
    rw [ha i (Finset.mem_range.1 hi)]
    split <;> simp
  rw [Finset.sum_congr rfl h, Finset.sum_ite_eq (Finset.range k) row f]
  simp [hrow]

/-- Associativity of the triple sum behind `(A B) C = A (B C)`. -/
theorem sum_sum_assoc (k p : Nat) (a : Nat → T) (b : Nat → Nat → T) (c : Nat → T) :
    ∑ j in Finset.range p, (∑ i in Finset.range k, a i * b i j) * c j
      = ∑ i in Finset.range k, a i * ∑ j in Finset.range p, b i j * c j := by
  simp_rw [Finset.sum_mul, Finset.mul_sum]
  rw [Finset.sum_comm]
  simp [mul_assoc]

end Semiring

/-- Counterexample to C8 as stated, at two inputs. (1) `m = 1`, `k = 46341` with `A` and
`C` of `m*k` elements and `B` the `k × k` identity buffer, of `46341^2 > 2^31 - 1`
elements: for `col = 46340`, `i = 41708` the 32-bit offset `i + col * ldb` is `-2^31`,
the read of `B` falls before `B` and the call does not complete. (2) `m = k = 2`,
`A = [1,3,2,4]` and `C` the same buffer as the identity `B = [1,0,0,1]`: the call
completes with `C[3] = 10` while `A[3] = 4`. -/
theorem cpu_gemm_naive_right_identity_counterexample :
    ((⟨[List.replicate 46341 2, identityBuf Int 46341, List.replicate 46341 0], []⟩ :
          Memory Int).Valid ⟨0, 0⟩ (1 * 46341) ∧
      (∀ j, j < 46341 * 46341 →
        (⟨[List.replicate 46341 2, identityBuf Int 46341, List.replicate 46341 0], []⟩ :
          Memory Int).elem ⟨1, 0⟩ j = (identityBuf Int 46341)[j]?) ∧
      (⟨[List.replicate 46341 2, identityBuf Int 46341, List.replicate 46341 0], []⟩ :
          Memory Int).Valid ⟨2, 0⟩ (1 * 46341) ∧
      cpu_gemm_naive ((1 : Nat) : Int) ((46341 : Nat) : Int) ((46341 : Nat) : Int)
        ⟨0, 0⟩ ⟨1, 0⟩ ⟨2, 0⟩
        (⟨[List.replicate 46341 2, identityBuf Int 46341, List.replicate 46341 0], []⟩ :
          Memory Int) = none) ∧
    ∃ s', cpu_gemm_naive 2 2 2 ⟨0, 0⟩ ⟨1, 0⟩ ⟨1, 0⟩
        (⟨[[1, 3, 2, 4], identityBuf Int 2], []⟩ : Memory Int) = some s' ∧
      s'.elem ⟨1, 0⟩ 3 = some 10 ∧
      (⟨[[1, 3, 2, 4], identityBuf Int 2], []⟩ : Memory Int).elem ⟨0, 0⟩ 3 = some 4 :=
  ⟨⟨valid_of_block (b := List.replicate 46341 2) rfl (by rw [List.length_replicate]),
      fun j _ => (elem_of_block (p := ⟨1, 0⟩) (block_one _ _ _) j).trans
        (congrArg (fun x => (identityBuf Int 46341)[x]?) (Nat.zero_add j)),
      valid_of_block (b := List.replicate 46341 0) rfl (by rw [List.length_replicate]),
      cpu_gemm_naive_none 1 46341 _ _ _ _ 0 46340 (by decide) (by decide)
        (fun t => cellStep_none_of_acc _ _ _ 46341 _ _ _ _ _ 41708 (by decide)
          (fun st => accStep_none_of_offB _ _ _ _ _ _ _ (by decide) st) t) _⟩,
    _, rfl, rfl, rfl⟩

/-- C8, amended. Right identity for the raw-buffer kernel: for every `m, k ≥ 0` with `m*k`
and `k*k` at most `2^31 - 1`, every `m × k` column-major buffer `A` over a semiring, `B`
the column-major buffer of the `k × k` identity matrix and `C` of at least `m*k` elements
whose first `m*k` elements overlap neither `A` nor `B`, `cpu_gemm_naive(m, k, k, A, B, C)`
completes and leaves the first `m*k` elements of `C` equal to `A` element by element. -/
theorem cpu_gemm_naive_right_identity {T : Type} [Semiring T] (m k : Nat)
    (A B C : Ptr) (s : Memory T)
    (hmk : ((m * k : Nat) : Int) ≤ INT_MAX) (hkk : ((k * k : Nat) : Int) ≤ INT_MAX)
    (hA : s.Valid A (m * k))
    (hI : ∀ j, j < k * k → s.elem B j = (identityBuf T k)[j]?)
    (hC : s.Valid C (m * k))
    (hsA : NoOverlap A (m * k) C (m * k)) (hsB : NoOverlap B (k * k) C (m * k)) :
    ∃ s', cpu_gemm_naive (m : Int) (k : Int) (k : Int) A B C s = some s' ∧
      ∀ off, off < m * k → ∃ v, s.elem A off = some v ∧ s'.elem C off = some v := by
  obtain ⟨hB, hval⟩ := identity_val k s B hI
  obtain ⟨s', hs', h⟩ := cpu_gemm_naive_spec m k k A B C True s hmk hkk hmk hA hB hC
    (fun _ => ⟨hsA, hsB⟩)
  refine ⟨s', hs', fun off hoff => ?_⟩
  obtain ⟨h1, h2, h3⟩ := off_decomp hoff
  rw [h.output_eq off hoff, dotFold_eq_sum,
    sum_mul_identity_col k (off / m) h2 (fun i => s.val A (off % m + i * m)) (s.val B)
      (fun i hi => hval i (off / m) hi h2)]
  simp only [← h3]
  exact ⟨_, elem_eq_some_val s A off (hA off hoff), rfl⟩

/-- Witness for C8: `A = [[1,2],[3,4]]` stored as `[1,3,2,4]` and `B = [1,0,0,1]` give
`C = [1,3,2,4]`. -/
theorem cpu_gemm_naive_right_identity_witness :
    identityBuf Int 2 = [1, 0, 0, 1] ∧
    ∃ s', cpu_gemm_naive ((2 : Nat) : Int) ((2 : Nat) : Int) ((2 : Nat) : Int)
        ⟨0, 0⟩ ⟨1, 0⟩ ⟨2, 0⟩
        (⟨[[1, 3, 2, 4], [1, 0, 0, 1], [0, 0, 0, 0]], []⟩ : Memory Int) = some s' ∧
      ∀ off, off < 2 * 2 → ∃ v,
        (⟨[[1, 3, 2, 4], [1, 0, 0, 1], [0, 0, 0, 0]], []⟩ : Memory Int).elem ⟨0, 0⟩ off
          = some v ∧ s'.elem ⟨2, 0⟩ off = some v :=
  ⟨rfl, cpu_gemm_naive_right_identity (T := Int) 2 2 ⟨0, 0⟩ ⟨1, 0⟩ ⟨2, 0⟩
    ⟨[[1, 3, 2, 4], [1, 0, 0, 1], [0, 0, 0, 0]], []⟩ (by decide) (by decide)
    (valid_of_block (b := [1, 3, 2, 4]) rfl (by decide))
    (by decide)
    (valid_of_block (b := [0, 0, 0, 0]) rfl (by decide))
    (noOverlap_of_blk_ne _ _ (by decide)) (noOverlap_of_blk_ne _ _ (by decide))⟩

/-- Counterexample to C9 as stated, at two inputs. (1) `k = 46341`, `n = 1` with `A` the
`k × k` identity buffer, of `46341^2 > 2^31 - 1` elements, and `B`, `C` of `k*n` elements:
for `row = 41708`, `i = 46340` the 32-bit offset `row + i * lda` is `-2^31`, the read of
`A` falls before `A` and the call does not complete. (2) `k = n = 2`, `B = [5,7,6,8]` and
`C` the same buffer as the identity `A = [1,0,0,1]`: the call completes with `C[2] = 30`
while `B[2] = 6`. -/
theorem cpu_gemm_naive_left_identity_counterexample :
    ((∀ j, j < 46341 * 46341 →
        (⟨[identityBuf Int 46341, List.replicate 46341 3, List.replicate 46341 0], []⟩ :
          Memory Int).elem ⟨0, 0⟩ j = (identityBuf Int 46341)[j]?) ∧
      (⟨[identityBuf Int 46341, List.replicate 46341 3, List.replicate 46341 0], []⟩ :
          Memory Int).Valid ⟨1, 0⟩ (46341 * 1) ∧
      (⟨[identityBuf Int 46341, List.replicate 46341 3, List.replicate 46341 0], []⟩ :
          Memory Int).Valid ⟨2, 0⟩ (46341 * 1) ∧
      cpu_gemm_naive ((46341 : Nat) : Int) ((1 : Nat) : Int) ((46341 : Nat) : Int)
        ⟨0, 0⟩ ⟨1, 0⟩ ⟨2, 0⟩
        (⟨[identityBuf Int 46341, List.replicate 46341 3, List.replicate 46341 0], []⟩ :
          Memory Int) = none) ∧
    ∃ s', cpu_gemm_naive 2 2 2 ⟨0, 0⟩ ⟨1, 0⟩ ⟨0, 0⟩
        (⟨[identityBuf Int 2, [5, 7, 6, 8]], []⟩ : Memory Int) = some s' ∧
      s'.elem ⟨0, 0⟩ 2 = some 30 ∧
      (⟨[identityBuf Int 2, [5, 7, 6, 8]], []⟩ : Memory Int).elem ⟨1, 0⟩ 2 = some 6 :=
  ⟨⟨fun j _ => (elem_of_block (p := ⟨0, 0⟩) (block_zero _ _) j).trans
        (congrArg (fun x => (identityBuf Int 46341)[x]?) (Nat.zero_add j)),
      valid_of_block (b := List.replicate 46341 3) rfl (by rw [List.length_replicate]),
      valid_of_block (b := List.replicate 46341 0) rfl (by rw [List.length_replicate]),
      cpu_gemm_naive_none 46341 1 _ _ _ _ 41708 0 (by decide) (by decide)
        (fun t => cellStep_none_of_acc _ _ _ 46341 _ _ _ _ _ 46340 (by decide)
          (fun st => accStep_none_of_offA _ _ _ _ _ _ _ (by decide) st) t) _⟩,
    _, rfl, rfl, rfl⟩

/-- C9, amended. Left identity for the raw-buffer kernel: for every `k, n ≥ 0` with `k*k`
and `k*n` at most `2^31 - 1`, `A` the column-major buffer of the `k × k` identity matrix,
every `k × n` column-major buffer `B` over a semiring and `C` of at least `k*n` elements
whose first `k*n` elements overlap neither `A` nor `B`, `cpu_gemm_naive(k, n, k, A, B, C)`
completes and leaves the first `k*n` elements of `C` equal to `B` exactly, element by
element. -/
theorem cpu_gemm_naive_left_identity {T : Type} [Semiring T] (k n : Nat)
    (A B C : Ptr) (s : Memory T)
    (hkk : ((k * k : Nat) : Int) ≤ INT_MAX) (hkn : ((k * n : Nat) : Int) ≤ INT_MAX)
    (hI : ∀ j, j < k * k → s.elem A j = (identityBuf T k)[j]?)
    (hB : s.Valid B (k * n)) (hC : s.Valid C (k * n))
    (hsA : NoOverlap A (k * k) C (k * n)) (hsB : NoOverlap B (k * n) C (k * n)) :
    ∃ s', cpu_gemm_naive (k : Int) (n : Int) (k : Int) A B C s = some s' ∧
      ∀ off, off < k * n → ∃ v, s.elem B off = some v ∧ s'.elem C off = some v := by
  obtain ⟨hA, hval⟩ := identity_val k s A hI
  obtain ⟨s', hs', h⟩ := cpu_gemm_naive_spec k n k A B C True s hkk hkn hkn hA hB hC
    (fun _ => ⟨hsA, hsB⟩)
  refine ⟨s', hs', fun off hoff => ?_⟩
  obtain ⟨h1, h2, h3⟩ := off_decomp hoff
  rw [h.output_eq off hoff, dotFold_eq_sum,
    sum_identity_row_mul k (off % k) h1 (fun i => s.val B (i + off / k * k)) (s.val A)
      (fun i hi => hval (off % k) i h1 hi)]
  simp only [← h3]
  exact ⟨_, elem_eq_some_val s B off (hB off hoff), rfl⟩

/-- Witness for C9: `A = [1,0,0,1]` and `B = [[5,6],[7,8]]` stored as `[5,7,6,8]` give
`C = [5,7,6,8]`. -/
theorem cpu_gemm_naive_left_identity_witness :
    identityBuf Int 2 = [1, 0, 0, 1] ∧
    ∃ s', cpu_gemm_naive ((2 : Nat) : Int) ((2 : Nat) : Int) ((2 : Nat) : Int)
        ⟨0, 0⟩ ⟨1, 0⟩ ⟨2, 0⟩
        (⟨[[1, 0, 0, 1], [5, 7, 6, 8], [0, 0, 0, 0]], []⟩ : Memory Int) = some s' ∧
      ∀ off, off < 2 * 2 → ∃ v,
        (⟨[[1, 0, 0, 1], [5, 7, 6, 8], [0, 0, 0, 0]], []⟩ : Memory Int).elem ⟨1, 0⟩ off
          = some v ∧ s'.elem ⟨2, 0⟩ off = some v :=
  ⟨rfl, cpu_gemm_naive_left_identity (T := Int) 2 2 ⟨0, 0⟩ ⟨1, 0⟩ ⟨2, 0⟩
    ⟨[[1, 0, 0, 1], [5, 7, 6, 8], [0, 0, 0, 0]], []⟩ (by decide) (by decide)
    (by decide)
    (valid_of_block (b := [5, 7, 6, 8]) rfl (by decide))
    (valid_of_block (b := [0, 0, 0, 0]) rfl (by decide))
    (noOverlap_of_blk_ne _ _ (by decide)) (noOverlap_of_blk_ne _ _ (by decide))⟩

/-! ## All-ones operands -/

/-- Counterexample to C11 as stated, at two inputs. (1) `m = 2`, `n = 1`, `k = 2^30 + 1`
with `A` the all-ones buffer of `m*k` elements and `B` the all-ones buffer of `k*n`
elements: the call does not complete, because `i * lda` overflows `int`, so no entry
equals `k`. (2) `m = n = k = 2` with `C` the same buffer as the all-ones `A`: the call
completes with the entry `C[2] = 3`, not `k = 2`. -/
theorem cpu_gemm_naive_all_ones_counterexample :
    ((∀ j, j < 2 * 1073741825 →
        (⟨[List.replicate 2147483650 1, List.replicate 1073741825 1, [0, 0]], []⟩ :
          Memory Int).elem ⟨0, 0⟩ j = some 1) ∧
      (∀ j, j < 1073741825 * 1 →
        (⟨[List.replicate 2147483650 1, List.replicate 1073741825 1, [0, 0]], []⟩ :
          Memory Int).elem ⟨1, 0⟩ j = some 1) ∧
      (⟨[List.replicate 2147483650 1, List.replicate 1073741825 1, [0, 0]], []⟩ :
          Memory Int).Valid ⟨2, 0⟩ (2 * 1) ∧
      cpu_gemm_naive ((2 : Nat) : Int) ((1 : Nat) : Int) ((1073741825 : Nat) : Int)
        ⟨0, 0⟩ ⟨1, 0⟩ ⟨2, 0⟩
        (⟨[List.replicate 2147483650 1, List.replicate 1073741825 1, [0, 0]], []⟩ :
          Memory Int) = none) ∧
    ∃ s', cpu_gemm_naive 2 2 2 ⟨0, 0⟩ ⟨1, 0⟩ ⟨0, 0⟩
        (⟨[[1, 1, 1, 1], [1, 1, 1, 1]], []⟩ : Memory Int) = some s' ∧
      s'.elem ⟨0, 0⟩ 2 = some 3 :=
  ⟨⟨fun j hj => (elem_of_block (p := ⟨0, 0⟩) (block_zero _ _) j).trans
        (List.getElem?_replicate_of_lt (show 0 + j < 2147483650 by omega)),
      fun j hj => (elem_of_block (p := ⟨1, 0⟩) (block_one _ _ _) j).trans
        (List.getElem?_replicate_of_lt (show 0 + j < 1073741825 by omega)),
      valid_of_block (b := [0, 0]) rfl (by decide),
      cpu_gemm_naive_none_k_large _ _ _ rfl _⟩,
    _, rfl, rfl⟩

/-- C11, amended. For all `m, n, k ≥ 0` with `m*k`, `k*n`, `m*n` at most `2^31 - 1`, if
`A` is the `m × k` all-ones buffer, `B` is the `k × n` all-ones buffer and `C` has at
least `m*n` elements, the first `m*n` of which overlap neither `A` nor `B`, then
`cpu_gemm_naive(m, n, k, A, B, C)` completes and every one of the `m*n` result entries
equals `k` (stated in any semiring, in particular for the integers). -/
theorem cpu_gemm_naive_all_ones {T : Type} [Semiring T] (m n k : Nat)
    (A B C : Ptr) (s : Memory T)
    (hmk : ((m * k : Nat) : Int) ≤ INT_MAX) (hkn : ((k * n : Nat) : Int) ≤ INT_MAX)
    (hmn : ((m * n : Nat) : Int) ≤ INT_MAX)
    (hA : ∀ j, j < m * k → s.elem A j = some 1)
    (hB : ∀ j, j < k * n → s.elem B j = some 1)
    (hC : s.Valid C (m * n))
    (hsA : NoOverlap A (m * k) C (m * n)) (hsB : NoOverlap B (k * n) C (m * n)) :
    ∃ s', cpu_gemm_naive (m : Int) (n : Int) (k : Int) A B C s = some s' ∧
      ∀ off, off < m * n → s'.elem C off = some (k : T) := by
  obtain ⟨s', hs', h⟩ := cpu_gemm_naive_spec m n k A B C True s hmk hkn hmn
    (fun j hj => by rw [hA j hj]; rfl) (fun j hj => by rw [hB j hj]; rfl) hC
    (fun _ => ⟨hsA, hsB⟩)
  refine ⟨s', hs', fun off hoff => ?_⟩
  obtain ⟨hrow, hcol, -⟩ := off_decomp hoff
  rw [h.output_eq off hoff, dotFold_eq_sum]
  congr 1
  have hterm : ∀ i ∈ Finset.range k,
      s.val A (off % m + i * m) * s.val B (i + off / m * k) = 1 := by
    intro i hi
    have hi' : i < k := Finset.mem_range.1 hi
    rw [val_of_elem (hA _ (offA_lt hrow hi')), val_of_elem (hB _ (offB_lt hi' hcol))]
    simp
  rw [Finset.sum_congr rfl hterm]
  simp

/-- Witness for C11: `m = 2`, `k = 3`, `n = 2` gives a `2 × 2` result with every entry
`3`. -/
theorem cpu_gemm_naive_all_ones_witness :
    ∃ s', cpu_gemm_naive ((2 : Nat) : Int) ((2 : Nat) : Int) ((3 : Nat) : Int)
        ⟨0, 0⟩ ⟨1, 0⟩ ⟨2, 0⟩
        (⟨[[1, 1, 1, 1, 1, 1], [1, 1, 1, 1, 1, 1], [0, 0, 0, 0]], []⟩ : Memory Int)
        = some s' ∧
      ∀ off, off < 2 * 2 → s'.elem ⟨2, 0⟩ off = some (((3 : Nat) : Int)) :=
  cpu_gemm_naive_all_ones (T := Int) 2 2 3 ⟨0, 0⟩ ⟨1, 0⟩ ⟨2, 0⟩
    ⟨[[1, 1, 1, 1, 1, 1], [1, 1, 1, 1, 1, 1], [0, 0, 0, 0]], []⟩
    (by decide) (by decide) (by decide) (by decide) (by decide)
    (valid_of_block (b := [0, 0, 0, 0]) rfl (by decide))
    (noOverlap_of_blk_ne _ _ (by decide)) (noOverlap_of_blk_ne _ _ (by decide))

/-! ## Associativity -/

/-- Counterexample to C10 as stated, at two inputs. (1) `m = 2`, `k = 2^30 + 1`,
`p = n = 1` with all seven buffers of the contract sizes in blocks of their own: the first
call `cpu_gemm_naive(m, p, k, A, B, T1)` does not complete, because `i * lda` overflows
`int`. (2) `m = k = p = n = 2` with `T1` the same buffer as `A`: all four calls complete
and the results differ, `R1[0] = 279` against `R2[0] = 63`. -/
theorem cpu_gemm_naive_assoc_counterexample :
    ((⟨[List.replicate 2147483650 1, List.replicate 1073741825 1, [1], [0, 0],
          List.replicate 1073741825 0, [0, 0], [0, 0]], []⟩ : Memory Int).Valid ⟨0, 0⟩
        (2 * 1073741825) ∧
      (⟨[List.replicate 2147483650 1, List.replicate 1073741825 1, [1], [0, 0],
          List.replicate 1073741825 0, [0, 0], [0, 0]], []⟩ : Memory Int).Valid ⟨1, 0⟩
        (1073741825 * 1) ∧
      (⟨[List.replicate 2147483650 1, List.replicate 1073741825 1, [1], [0, 0],
          List.replicate 1073741825 0, [0, 0], [0, 0]], []⟩ : Memory Int).Valid ⟨3, 0⟩
        (2 * 1) ∧
      cpu_gemm_naive ((2 : Nat) : Int) ((1 : Nat) : Int) ((1073741825 : Nat) : Int)
        ⟨0, 0⟩ ⟨1, 0⟩ ⟨3, 0⟩
        (⟨[List.replicate 2147483650 1, List.replicate 1073741825 1, [1], [0, 0],
          List.replicate 1073741825 0, [0, 0], [0, 0]], []⟩ : Memory Int) = none) ∧
    ∃ s1 s2 s3 s4,
      cpu_gemm_naive 2 2 2 ⟨0, 0⟩ ⟨1, 0⟩ ⟨0, 0⟩
        (⟨[[1, 3, 2, 4], [5, 7, 6, 8], [1, 2, 3, 4], [0, 0, 0, 0], [0, 0, 0, 0],
          [0, 0, 0, 0]], []⟩ : Memory Int) = some s1 ∧
      cpu_gemm_naive 2 2 2 ⟨0, 0⟩ ⟨2, 0⟩ ⟨4, 0⟩ s1 = some s2 ∧
      cpu_gemm_naive 2 2 2 ⟨1, 0⟩ ⟨2, 0⟩ ⟨3, 0⟩
        (⟨[[1, 3, 2, 4], [5, 7, 6, 8], [1, 2, 3, 4], [0, 0, 0, 0], [0, 0, 0, 0],
          [0, 0, 0, 0]], []⟩ : Memory Int) = some s3 ∧
      cpu_gemm_naive 2 2 2 ⟨0, 0⟩ ⟨3, 0⟩ ⟨5, 0⟩ s3 = some s4 ∧
      s2.elem ⟨4, 0⟩ 0 = some 279 ∧ s4.elem ⟨5, 0⟩ 0 = some 63 :=
  ⟨⟨valid_of_block (b := List.replicate 2147483650 1) rfl (by rw [List.length_replicate]),
      valid_of_block (b := List.replicate 1073741825 1) rfl (by rw [List.length_replicate]),
      valid_of_block (b := [0, 0]) rfl (by decide),
      cpu_gemm_naive_none_k_large _ _ _ rfl _⟩,
    _, _, _, _, rfl, rfl, rfl, rfl, rfl, rfl⟩

/-- C10, amended. Associativity in exact arithmetic (any semiring, in particular the
integers): for all `m, k, p, n ≥ 0` with `m*k`, `k*p`, `m*p`, `p*n`, `k*n`, `m*n` at most
`2^31 - 1` and matrices `A` (`m × k`), `B` (`k × p`), `C` (`p × n`) in column-major
buffers, with temporaries `T1` (`m*p` elements), `T2` (`k*n`) and results `R1`, `R2`
(`m*n`) such that no output of a call overlaps an input of that call and the temporaries
overlap none of `A`, `B`, `C`: computing `AB` with `cpu_gemm_naive(m, p, k, A, B, T1)` and
then `cpu_gemm_naive(m, n, p, T1, C, R1)` gives the same `m*n` result elements as
computing `BC` with `cpu_gemm_naive(k, n, p, B, C, T2)` and then
`cpu_gemm_naive(m, n, k, A, T2, R2)` from the same memory; all four calls complete. -/
theorem cpu_gemm_naive_assoc {T : Type} [Semiring T] (m k p n : Nat)
    (A B C T1 T2 R1 R2 : Ptr) (s : Memory T)
    (hmk : ((m * k : Nat) : Int) ≤ INT_MAX) (hkp : ((k * p : Nat) : Int) ≤ INT_MAX)
    (hmp : ((m * p : Nat) : Int) ≤ INT_MAX) (hpn : ((p * n : Nat) : Int) ≤ INT_MAX)
    (hkn : ((k * n : Nat) : Int) ≤ INT_MAX) (hmn : ((m * n : Nat) : Int) ≤ INT_MAX)
    (hA : s.Valid A (m * k)) (hB : s.Valid B (k * p)) (hC : s.Valid C (p * n))
    (hT1 : s.Valid T1 (m * p)) (hT2 : s.Valid T2 (k * n))
    (hR1 : s.Valid R1 (m * n)) (hR2 : s.Valid R2 (m * n))
    (hAT1 : NoOverlap A (m * k) T1 (m * p)) (hBT1 : NoOverlap B (k * p) T1 (m * p))
    (hCT1 : NoOverlap C (p * n) T1 (m * p))
    (hT1R1 : NoOverlap T1 (m * p) R1 (m * n)) (hCR1 : NoOverlap C (p * n) R1 (m * n))
    (hBT2 : NoOverlap B (k * p) T2 (k * n)) (hCT2 : NoOverlap C (p * n) T2 (k * n))
    (hAT2 : NoOverlap A (m * k) T2 (k * n))
    (hAR2 : NoOverlap A (m * k) R2 (m * n)) (hT2R2 : NoOverlap T2 (k * n) R2 (m * n)) :
    ∃ s1 s2 s3 s4,
      cpu_gemm_naive (m : Int) (p : Int) (k : Int) A B T1 s = some s1 ∧
      cpu_gemm_naive (m : Int) (n : Int) (p : Int) T1 C R1 s1 = some s2 ∧
      cpu_gemm_naive (k : Int) (n : Int) (p : Int) B C T2 s = some s3 ∧
      cpu_gemm_naive (m : Int) (n : Int) (k : Int) A T2 R2 s3 = some s4 ∧
      ∀ off, off < m * n → ∃ v, s2.elem R1 off = some v ∧ s4.elem R2 off = some v := by
  obtain ⟨s1, hs1, h1⟩ := cpu_gemm_naive_spec m p k A B T1 True s hmk hkp hmp hA hB hT1
    (fun _ => ⟨hAT1, hBT1⟩)
  obtain ⟨s2, hs2, h2⟩ := cpu_gemm_naive_spec m n p T1 C R1 True s1 hmp hpn hmn
    (valid_of_hsome h1.hsome hT1) (valid_of_hsome h1.hsome hC)
    (valid_of_hsome h1.hsome hR1) (fun _ => ⟨hT1R1, hCR1⟩)
  obtain ⟨s3, hs3, h3⟩ := cpu_gemm_naive_spec k n p B C T2 True s hkp hpn hkn hB hC hT2
    (fun _ => ⟨hBT2, hCT2⟩)
  obtain ⟨s4, hs4, h4⟩ := cpu_gemm_naive_spec m n k A T2 R2 True s3 hmk hkn hmn
    (valid_of_hsome h3.hsome hA) (valid_of_hsome h3.hsome hT2)
    (valid_of_hsome h3.hsome hR2) (fun _ => ⟨hAR2, hT2R2⟩)
  refine ⟨s1, s2, s3, s4, hs1, hs2, hs3, hs4, fun off hoff => ?_⟩
  obtain ⟨hrow, hcol, -⟩ := off_decomp hoff
  refine ⟨_, h2.output_eq off hoff, ?_⟩
  rw [h4.output_eq off hoff, dotFold_eq_sum, dotFold_eq_sum]
  congr 1
  symm
  have hl : ∀ j ∈ Finset.range p,
      s1.val T1 (off % m + j * m) * s1.val C (j + off / m * p)
        = (∑ i in Finset.range k, s.val A (off % m + i * m) * s.val B (i + j * k))
            * s.val C (j + off / m * p) := by
    intro j hj
    have hj' : j < p := Finset.mem_range.1 hj
    rw [val_of_elem (h1.hdone trivial (off % m) j ⟨hrow, hj'⟩), dotFold_eq_sum]
    congr 1
    unfold Memory.val
    rw [h1.input_eq C _ hCT1 _ (offB_lt hj' hcol)]
  have hr : ∀ i ∈ Finset.range k,
      s3.val A (off % m + i * m) * s3.val T2 (i + off / m * k)
        = s.val A (off % m + i * m)
            * ∑ j in Finset.range p, s.val B (i + j * k) * s.val C (j + off / m * p) := by
    intro i hi
    have hi' : i < k := Finset.mem_range.1 hi
    rw [val_of_elem (h3.hdone trivial i (off / m) ⟨hi', hcol⟩), dotFold_eq_sum]
    congr 1
    unfold Memory.val
    rw [h3.input_eq A _ hAT2 _ (offA_lt hrow hi')]
  rw [Finset.sum_congr rfl hl, Finset.sum_congr rfl hr]
  exact sum_sum_assoc k p _ _ _

/-- Witness for C10: a `1 × 2`, a `2 × 2` and a `2 × 1` integer matrix, the seven buffers
in blocks of their own. -/
theorem cpu_gemm_naive_assoc_witness :
    ∃ s1 s2 s3 s4,
      cpu_gemm_naive ((1 : Nat) : Int) ((2 : Nat) : Int) ((2 : Nat) : Int)
        ⟨0, 0⟩ ⟨1, 0⟩ ⟨3, 0⟩
        (⟨[[1, 2], [3, 4, 5, 6], [7, 8], [0, 0], [0, 0], [0], [0]], []⟩ : Memory Int)
        = some s1 ∧
      cpu_gemm_naive ((1 : Nat) : Int) ((1 : Nat) : Int) ((2 : Nat) : Int)
        ⟨3, 0⟩ ⟨2, 0⟩ ⟨5, 0⟩ s1 = some s2 ∧
      cpu_gemm_naive ((2 : Nat) : Int) ((1 : Nat) : Int) ((2 : Nat) : Int)
        ⟨1, 0⟩ ⟨2, 0⟩ ⟨4, 0⟩
        (⟨[[1, 2], [3, 4, 5, 6], [7, 8], [0, 0], [0, 0], [0], [0]], []⟩ : Memory Int)
        = some s3 ∧
      cpu_gemm_naive ((1 : Nat) : Int) ((1 : Nat) : Int) ((2 : Nat) : Int)
        ⟨0, 0⟩ ⟨4, 0⟩ ⟨6, 0⟩ s3 = some s4 ∧
      ∀ off, off < 1 * 1 →
        ∃ v, s2.elem ⟨5, 0⟩ off = some v ∧ s4.elem ⟨6, 0⟩ off = some v :=
  cpu_gemm_naive_assoc (T := Int) 1 2 2 1 ⟨0, 0⟩ ⟨1, 0⟩ ⟨2, 0⟩ ⟨3, 0⟩ ⟨4, 0⟩ ⟨5, 0⟩ ⟨6, 0⟩
    ⟨[[1, 2], [3, 4, 5, 6], [7, 8], [0, 0], [0, 0], [0], [0]], []⟩
    (by decide) (by decide) (by decide) (by decide) (by decide) (by decide)
    (valid_of_block (b := [1, 2]) rfl (by decide))
    (valid_of_block (b := [3, 4, 5, 6]) rfl (by decide))
    (valid_of_block (b := [7, 8]) rfl (by decide))
    (valid_of_block (b := [0, 0]) rfl (by decide))
    (valid_of_block (b := [0, 0]) rfl (by decide))
    (valid_of_block (b := [0]) rfl (by decide))
    (valid_of_block (b := [0]) rfl (by decide))
    (noOverlap_of_blk_ne _ _ (by decide)) (noOverlap_of_blk_ne _ _ (by decide))
    (noOverlap_of_blk_ne _ _ (by decide)) (noOverlap_of_blk_ne _ _ (by decide))
    (noOverlap_of_blk_ne _ _ (by decide)) (noOverlap_of_blk_ne _ _ (by decide))
    (noOverlap_of_blk_ne _ _ (by decide)) (noOverlap_of_blk_ne _ _ (by decide))
    (noOverlap_of_blk_ne _ _ (by decide)) (noOverlap_of_blk_ne _ _ (by decide))

end fwgpu
